import Mathlib

/-!
Verification development for the maritime-safety-platform analysis pipeline.

The Python source is shallowly embedded in Lean:
* float arithmetic is modelled exactly over ℚ (the source only adds,
  multiplies, divides and compares in the code paths verified here); the one
  genuinely real-valued operation, the float power `x ** opening_influence`
  used by the ACH calculator, is modelled by an uninterpreted parameter
  `pw : ℚ → ℚ`;
* Python dicts are modelled as association lists with first-key lookup and
  update-or-append write (matching unique-key dict semantics);
* networkx graphs are modelled by a node list plus an edge list in insertion
  order, which is exactly the iteration order networkx exposes;
* Python exceptions are modelled with Except.
-/

/-! ## Generic reachability closure

Computable breadth-style closure of a neighbour function, used to model
networkx has_path / connected_components and scipy connected-component
labelling. -/

/-- One closure step: add every neighbour of the current set. -/
def nstep {α : Type} [DecidableEq α] (nb : α → List α) (s : Finset α) : Finset α :=
  s ∪ s.biUnion (fun a => (nb a).toFinset)

/-- Iterated closure steps. -/
def niter {α : Type} [DecidableEq α] (nb : α → List α) : ℕ → Finset α → Finset α
  | 0, s => s
  | n + 1, s => niter nb n (nstep nb s)

/-- Reachability along the neighbour relation. -/
def Reaches {α : Type} (nb : α → List α) (a b : α) : Prop :=
  Relation.ReflTransGen (fun x y => y ∈ nb x) a b

/-! ## Graph model (networkx.Graph as built by the pipeline)

Nodes are string ids; edges carry the attribute dict written by
TopologyBuilder.build_topology: openings, count, weight, opening_types and
the repair flag. -/

/-- Attributes of one undirected edge of the space graph. -/
structure EdgeData where
  u : String
  v : String
  openings : List String
  count : ℕ
  weight : ℚ
  opening_types : List String
  is_repair : Bool
deriving DecidableEq, Repr

/-- A networkx.Graph: node list and edge list, both in insertion order. -/
structure Graph where
  nodes : List String
  edges : List EdgeData
deriving DecidableEq, Repr

/-- Does edge e join a and b (in either orientation)? -/
def edgeMatches (e : EdgeData) (a b : String) : Bool :=
  (e.u = a && e.v = b) || (e.u = b && e.v = a)

/-- G.get_edge_data(a, b): first stored edge joining a and b. -/
def findEdge (g : Graph) (a b : String) : Option EdgeData :=
  g.edges.find? (fun e => edgeMatches e a b)

/-- G.has_edge(a, b). -/
def hasEdgeB (g : Graph) (a b : String) : Bool :=
  (findEdge g a b).isSome

/-- Neighbours of a node, in edge-insertion order (networkx adjacency order). -/
def adjList (g : Graph) (a : String) : List String :=
  g.edges.filterMap (fun e =>
    if e.u = a then some e.v else if e.v = a then some e.u else none)

/-- Fuel that is always enough for the closure over the nodes of g. -/
def closureFuel (g : Graph) (a : String) : ℕ :=
  (insert a g.nodes.toFinset).card

/-- Computable set of nodes reachable from a (model of a connected component). -/
def reachSetOf (g : Graph) (a : String) : Finset String :=
  niter (adjList g) (closureFuel g a) {a}

/-- networkx.has_path(g, a, b), computed by closure iteration. -/
def hasPathB (g : Graph) (a b : String) : Bool :=
  b ∈ reachSetOf g a

/-- networkx.connected_components(g): one vertex set per component.  The model
lists the reach set of every node and deduplicates; the order of distinct
components is node order, which subsumes the iteration order networkx uses. -/
def graphComponents (g : Graph) : List (Finset String) :=
  (g.nodes.map (reachSetOf g)).dedup

/-! ## TopologyBuilder (src/ventilation/topology_builder.py) -/

/-- The distinguished exterior node id. -/
def exteriorId : String := "space_exterior"

/-- A space record as consumed by build_topology: the id key is required,
volume is read with .get("volume", 0). -/
structure SpaceIn where
  id : String
  volume : Option ℚ
deriving DecidableEq, Repr

/-- An opening record as consumed by build_topology: connects is read with
.get("connects", []), area with an "in" test, type by direct key access. -/
structure OpeningIn where
  id : String
  connects : List String
  area : Option ℚ
  type : String
deriving DecidableEq, Repr

/-- add_node on a networkx graph: appends the id unless already present. -/
def addNodeIfAbsent (ns : List String) (i : String) : List String :=
  if i ∈ ns then ns else ns ++ [i]

/-- Edge weight computed from an opening: 1/area for positive area, 10 for
area ≤ 0, and the initial value 1 when the area key is absent. -/
def openingWeight (o : OpeningIn) : ℚ :=
  match o.area with
  | none => 1
  | some a => if 0 < a then 1 / a else 10

/-- Update of an existing edge when a further opening spans the same pair:
append the opening id and type, recount, keep the minimum weight. -/
def updEdgeData (o : OpeningIn) (w : ℚ) (e : EdgeData) : EdgeData :=
  { e with
    openings := e.openings ++ [o.id]
    count := e.openings.length + 1
    weight := min e.weight w
    opening_types := e.opening_types ++ [o.type] }

/-- Replace the first edge joining a and b by f of it. -/
def replaceEdge (a b : String) (f : EdgeData → EdgeData) : List EdgeData → List EdgeData
  | [] => []
  | e :: t => if edgeMatches e a b then f e :: t else e :: replaceEdge a b f t

/-- Process one opening of build_topology: normalise the endpoint list
(appending the exterior when only one endpoint is given), skip invalid or
dangling connections, then create or update the edge. -/
def insertOpening (ns : List String) (es : List EdgeData) (o : OpeningIn) : List EdgeData :=
  let cs := if o.connects.length = 1 then o.connects ++ [exteriorId] else o.connects
  match cs with
  | [a, b] =>
      if a ∈ ns ∧ b ∈ ns then
        let w := openingWeight o
        if hasEdgeB ⟨ns, es⟩ a b then
          replaceEdge a b (updEdgeData o w) es
        else
          es ++ [⟨a, b, [o.id], 1, w, [o.type], false⟩]
      else es
  | _ => es

/-- Node list built by build_topology: every space id, then the exterior. -/
def topoNodes (spaces : List SpaceIn) : List String :=
  addNodeIfAbsent (spaces.foldl (fun ns s => addNodeIfAbsent ns s.id) []) exteriorId

/-- Association-list lookup (Python dict read). -/
def lookupA {β : Type} (m : List (String × β)) (k : String) : Option β :=
  (m.find? (fun kv => kv.1 = k)).map (fun kv => kv.2)

/-- Association-list write (Python dict write: update first binding or append). -/
def setA {β : Type} (m : List (String × β)) (k : String) (v : β) : List (String × β) :=
  match m with
  | [] => [(k, v)]
  | kv :: t => if kv.1 = k then (k, v) :: t else kv :: setA t k v

/-- The space_properties dict populated by build_topology. -/
def spacePropsOf (spaces : List SpaceIn) : List (String × SpaceIn) :=
  spaces.foldl (fun m s => setA m s.id s) []

/-- The graph before the repair pass: nodes plus one edge per opening group. -/
def buildGraphRaw (spaces : List SpaceIn) (openings : List OpeningIn) : Graph :=
  let ns := topoNodes spaces
  ⟨ns, openings.foldl (insertOpening ns) []⟩

/-- Largest-volume space of a component, as the repair pass scans it: first
node whose stored volume strictly exceeds the running maximum (initially 0). -/
def pickLargest (props : List (String × SpaceIn)) (l : List String) : Option String × ℚ :=
  l.foldl
    (fun acc n =>
      match lookupA props n with
      | some s => if (s.volume.getD 0) > acc.2 then (some n, s.volume.getD 0) else acc
      | none => acc)
    (none, 0)

/-- The synthetic repair edge added for a disconnected component. -/
def repairEdge (m : String) : EdgeData :=
  ⟨m, exteriorId, ["repair_opening"], 1, 2, ["repair"], true⟩

/-- The repair pass _validate_topology: components are computed once on the
unrepaired graph; every component other than the one holding the exterior
node gets its largest-volume space joined to the exterior. -/
def validateTopology (props : List (String × SpaceIn)) (g : Graph) : Graph :=
  let comps := graphComponents g
  match comps.find? (fun c => exteriorId ∈ c) with
  | none => g
  | some ec =>
      comps.foldl
        (fun g2 c =>
          if c = ec then g2
          else
            match (pickLargest props (c.sort (fun a b => a ≤ b))).1 with
            | some m => { g2 with edges := g2.edges ++ [repairEdge m] }
            | none => g2)
        g

/-- _find_isolated_spaces: non-exterior nodes with no path to the exterior. -/
def findIsolatedSpaces (g : Graph) : List String :=
  g.nodes.filter (fun n => n ∉ ({exteriorId} : Finset String) && !hasPathB g n exteriorId)

/-- build_topology: raw graph, repair pass, isolated-space report. -/
def buildTopology (spaces : List SpaceIn) (openings : List OpeningIn) :
    Graph × List String :=
  let g := validateTopology (spacePropsOf spaces) (buildGraphRaw spaces openings)
  (g, findIsolatedSpaces g)

/-! ## AchCalculator (src/ventilation/ach_calculator.py)

Default configuration values from config.py: high_ach_rate = 10,
medium_ach_range = [5, 8], low_ach_range = [1, 4],
opening_influence_factor = 0.7 (kept abstract as the parameter pw),
path_decay_factor = 0.6. -/

/-- high_ach_rate default. -/
def highAchRate : ℚ := 10

/-- np.mean(medium_ach_range) with the default range [5, 8]. -/
def mediumAchMean : ℚ := 13 / 2

/-- np.mean(low_ach_range) with the default range [1, 4]. -/
def lowAchMean : ℚ := 5 / 2

/-- low_ach_range[0], the floor of every computed ACH value. -/
def achLowMin : ℚ := 1

/-- path_decay_factor default. -/
def pathDecayFactor : ℚ := 3 / 5

/-- Opening info collected along a path: the estimated area is
1/edge_weight for positive weight, else 1. -/
structure OpeningInfo where
  id : String
  type : String
  estimated_area : ℚ
deriving DecidableEq, Repr

/-- A ventilation-path object as assembled by _find_ventilation_paths. -/
structure PathObj where
  route : List String
  via : List String
  openings : List OpeningInfo
  weight : ℚ
  length : ℕ
  decay_factor : ℚ
  total_opening_area : ℚ
  exterior : String
deriving DecidableEq, Repr

/-- Estimated opening area from the carrying edge weight. -/
def estArea (w : ℚ) : ℚ :=
  if 0 < w then 1 / w else 1

/-- edge_data.get("weight", 1.0) along a route (routes only traverse real
edges, so the default never fires on enumerated paths). -/
def edgeWeightOf (g : Graph) (a b : String) : ℚ :=
  ((findEdge g a b).map EdgeData.weight).getD 1

/-- edge_data.get("openings", []). -/
def edgeOpeningsOf (g : Graph) (a b : String) : List String :=
  ((findEdge g a b).map EdgeData.openings).getD []

/-- edge_data.get("opening_types", []). -/
def edgeTypesOf (g : Graph) (a b : String) : List String :=
  ((findEdge g a b).map EdgeData.opening_types).getD []

/-- next((t for t in types if t != "repair"), "unknown"). -/
def openingTypeOf (types : List String) : String :=
  (types.find? (fun t => t ≠ "repair")).getD "unknown"

/-- The consecutive node pairs of a route. -/
def routePairs (route : List String) : List (String × String) :=
  route.zip route.tail

/-- Opening infos collected over one edge of a route. -/
def edgeOpeningInfos (g : Graph) (a b : String) : List OpeningInfo :=
  (edgeOpeningsOf g a b).map
    (fun oid => ⟨oid, openingTypeOf (edgeTypesOf g a b), estArea (edgeWeightOf g a b)⟩)

/-- Path object assembled by _find_ventilation_paths for one enumerated
route: summed edge weight, per-opening estimated areas, decay factor
path_decay ^ (length - 1). -/
def mkPathObj (g : Graph) (ext : String) (route : List String) : PathObj :=
  let pairs := routePairs route
  let infos := pairs.flatMap (fun ab => edgeOpeningInfos g ab.1 ab.2)
  let pw := (pairs.map (fun ab => edgeWeightOf g ab.1 ab.2)).sum
  let hops := route.length - 1
  { route := route
    via := infos.map OpeningInfo.id
    openings := infos
    weight := pw
    length := hops
    decay_factor := pathDecayFactor ^ (hops - 1)
    total_opening_area := (infos.map OpeningInfo.estimated_area).sum
    exterior := ext }

/-- Sibling loop of the depth-first enumeration of simple paths mirroring
the generator networkx.all_simple_paths uses: visited is the current path
(source first), the final list argument the not-yet-scanned neighbours of
its last node; next descends one level with the remaining depth budget
reduced (it is spVisit at the enclosing budget). -/
def spLevel (next : List String → List String → List (List String))
    (adj : String → List String) (target : String) (visited : List String) :
    List String → List (List String)
  | [] => []
  | c :: rest =>
      if c ∈ visited then spLevel next adj target visited rest
      else if c = target then
        (visited ++ [c]) :: spLevel next adj target visited rest
      else
        next (visited ++ [c]) (adj c) ++ spLevel next adj target visited rest

/-- Recursion over the remaining depth budget; at budget zero the generator
is at the cutoff and only scans the level for the target. -/
def spVisit (adj : String → List String) (target : String) :
    ℕ → List String → List String → List (List String)
  | 0, visited, children =>
      match children with
      | [] => []
      | c :: rest =>
          if target ∈ c :: rest ∧ target ∉ visited then [visited ++ [target]] else []
  | fuel + 1, visited, children =>
      spLevel (spVisit adj target fuel) adj target visited children

/-- list(nx.all_simple_paths(g, source, target, cutoff)) in generator order. -/
def allSimplePathsTo (g : Graph) (source target : String) (cutoff : ℕ) :
    List (List String) :=
  spVisit (adjList g) target (cutoff - 1) [source] (adjList g source)

/-- _find_ventilation_paths: per exterior node, keep the first five
enumerated simple paths of at most six hops; afterwards sort every
collected path object by ascending weight (Python list.sort is stable, as
is insertion sort). -/
def findVentilationPaths (g : Graph) (sid : String) (exts : List String) :
    List PathObj :=
  let raw := exts.flatMap
    (fun ext =>
      if hasPathB g sid ext then
        ((allSimplePathsTo g sid ext 6).take 5).map (mkPathObj g ext)
      else [])
  List.insertionSort (fun p q => p.weight ≤ q.weight) raw

/-- Base ACH from the hop count of a path. -/
def baseAchForLength (hops : ℕ) : ℚ :=
  if hops = 1 then highAchRate
  else if hops = 2 then mediumAchMean
  else lowAchMean

/-- Contribution of one retained path inside _calculate_space_ach:
base ACH · (total estimated opening area ** opening_influence) · decay,
with the float power abstracted as pw. -/
def pathContribution (pw : ℚ → ℚ) (p : PathObj) : ℚ :=
  baseAchForLength p.length * pw p.total_opening_area * p.decay_factor

/-- Clamp of the combined rate to [low_ach_range[0], high_ach_rate]. -/
def clampAch (x : ℚ) : ℚ :=
  max achLowMin (min x highAchRate)

/-- _calculate_space_ach: low floor when no path exists, otherwise the
weighted mean of path contributions (weights 1/(path_weight + 0.1),
normalised) clamped to [achLowMin, highAchRate]. -/
def calculateSpaceAch (pw : ℚ → ℚ) (paths : List PathObj) : ℚ :=
  if paths = [] then achLowMin
  else
    let ws := paths.map (fun p => 1 / (p.weight + 1 / 10))
    let nws := ws.map (fun w => w / ws.sum)
    let cs := paths.map (pathContribution pw)
    clampAch (((cs.zip nws).map (fun cw => cw.1 * cw.2)).sum)

/-- Stored state of the calculator after calculate_ach_rates. -/
structure CalcState where
  achRates : List (String × ℚ)
  ventilationPaths : List (String × List PathObj)
deriving Repr

/-- One smoothing step of _validate_ach_rates over one graph edge: skip
exterior endpoints, and when the two rates differ by more than 5 pull each
30 percent of the way towards their mean. -/
def smoothStep (m : List (String × ℚ)) (e : EdgeData) : List (String × ℚ) :=
  if e.u.startsWith "space_exterior" || e.v.startsWith "space_exterior" then m
  else
    let a1 := (lookupA m e.u).getD 0
    let a2 := (lookupA m e.v).getD 0
    if |a1 - a2| > 5 then
      let avg := (a1 + a2) / 2
      if a1 > a2 then
        setA (setA m e.u (a1 - (a1 - avg) * (3 / 10))) e.v (a2 + (avg - a2) * (3 / 10))
      else
        setA (setA m e.u (a1 + (avg - a1) * (3 / 10))) e.v (a2 - (a2 - avg) * (3 / 10))
    else m

/-- _validate_ach_rates: smoothing fold over every graph edge. -/
def validateAchRates (g : Graph) (m : List (String × ℚ)) : List (String × ℚ) :=
  g.edges.foldl smoothStep m

/-- A space record as consumed by calculate_ach_rates (its volume is read
but unused by _calculate_space_ach). -/
structure AchSpaceIn where
  id : String
  volume : Option ℚ
deriving DecidableEq, Repr

/-- calculate_ach_rates: per space, store the found paths and the computed
rate; afterwards run the smoothing pass over the graph. -/
def calculateAchRates (pw : ℚ → ℚ) (spaces : List AchSpaceIn) (g : Graph)
    (exts : List String) : CalcState :=
  let st := spaces.foldl
    (fun (st : CalcState) s =>
      let paths := findVentilationPaths g s.id exts
      { achRates := setA st.achRates s.id (calculateSpaceAch pw paths)
        ventilationPaths := setA st.ventilationPaths s.id paths })
    (⟨[], []⟩ : CalcState)
  { st with achRates := validateAchRates g st.achRates }

/-- update_ach_for_opening_state: on a copy of the stored rates, scale by
0.7 the rate of every space one of whose paths traverses a closed opening.
The in-place *= on a missing key is Python KeyError, modelled as Except. -/
def updateAchForOpeningState (st : CalcState) (os : List (String × String)) :
    Except String (List (String × ℚ)) :=
  st.ventilationPaths.foldlM
    (fun rates sp =>
      let affected := sp.2.any (fun p => p.via.any (fun oid => lookupA os oid = some "closed"))
      if affected then
        match lookupA rates sp.1 with
        | some v => Except.ok (setA rates sp.1 (v * (7 / 10)))
        | none => Except.error "KeyError"
      else Except.ok rates)
    st.achRates

/-- The method call as a whole: it reads self.ach_rates through a copy and
never writes back, so the stored state is returned unchanged beside the
derived map. -/
def updateAchMethod (st : CalcState) (os : List (String × String)) :
    CalcState × Except String (List (String × ℚ)) :=
  (st, updateAchForOpeningState st os)

/-! ## SpaceDataGenerator (src/data_output/space_data_generator.py) -/

/-- A raw space dict consumed by generate_space_data: id is required, the
remaining keys are read with .get defaults. -/
structure GSpaceIn where
  id : String
  type : Option String
  volume : Option ℚ
  bbox_min : Option (ℚ × ℚ × ℚ)
  bbox_max : Option (ℚ × ℚ × ℚ)
deriving DecidableEq, Repr

/-- A raw opening dict consumed by generate_space_data. -/
structure GOpeningIn where
  id : String
  type : Option String
  connects : List String
  position : Option (ℚ × ℚ × ℚ)
  area : Option ℚ
  state : Option String
deriving DecidableEq, Repr

/-- The primary-path summary stored under ventilationInfo. -/
structure VentInfo where
  route : List String
  via : List String
  length : ℕ
  pathCount : ℕ
deriving DecidableEq, Repr

/-- A processed space entry of the output record. -/
structure PSpace where
  id : String
  type : String
  volume : ℚ
  bbox_min : ℚ × ℚ × ℚ
  bbox_max : ℚ × ℚ × ℚ
  ventilationRate : ℚ
  connections : List String
  ventilationInfo : Option VentInfo
deriving DecidableEq, Repr

/-- A processed opening entry of the output record. -/
structure POpening where
  id : String
  type : String
  connects : List String
  position : ℚ × ℚ × ℚ
  area : ℚ
  state : String
deriving DecidableEq, Repr

/-- _process_spaces: connections is initialised empty ("filled in later",
which the broken _process_openings loop never does). -/
def processSpaces (spaces : List GSpaceIn) (achRates : List (String × ℚ))
    (ventPaths : List (String × List PathObj)) : List PSpace :=
  spaces.map (fun s =>
    let paths := (lookupA ventPaths s.id).getD []
    { id := s.id
      type := s.type.getD "unknown"
      volume := s.volume.getD 0
      bbox_min := s.bbox_min.getD (0, 0, 0)
      bbox_max := s.bbox_max.getD (0, 0, 0)
      ventilationRate := (lookupA achRates s.id).getD 0
      connections := []
      ventilationInfo :=
        match paths with
        | [] => none
        | p :: _ => some ⟨p.route, p.via, p.length, paths.length⟩ })

/-- _process_openings: builds the processed list, but the connection
back-fill loop executes `for space in self._process_spaces`, iterating a
bound method — a TypeError as soon as an opening has a nonempty endpoint
list.  The exception is modelled with Except. -/
def processOpenings (openings : List GOpeningIn) : Except String (List POpening) :=
  openings.foldlM
    (fun acc o =>
      let po : POpening :=
        { id := o.id
          type := o.type.getD "unknown"
          connects := o.connects
          position := o.position.getD (0, 0, 0)
          area := o.area.getD 0
          state := o.state.getD "open" }
      match o.connects with
      | [] => Except.ok (acc ++ [po])
      | _ :: _ => Except.error "TypeError: argument of type method is not iterable")
    []

/-- One per-space entry of the ventilationPaths output section. -/
structure PVPath where
  route : List String
  via : List String
  contribution : ℚ
deriving DecidableEq, Repr

/-- _process_ventilation_paths: per-path contributions 1/(weight + 0.1),
normalised to sum to one. -/
def processVentilationPaths (ventPaths : List (String × List PathObj)) :
    List (String × List PVPath) :=
  ventPaths.filterMap (fun sp =>
    let cs := sp.2.map (fun p => 1 / (p.weight + 1 / 10))
    let total := cs.sum
    let ncs := if 0 < total then cs.map (fun c => c / total) else []
    let rows := (sp.2.zip ncs).map (fun pc => (⟨pc.1.route, pc.1.via, pc.2⟩ : PVPath))
    match rows with
    | [] => none
    | _ :: _ => some (sp.1, rows))

/-- The assembled output record (metadata omitted: timestamps and echoed
configuration only). -/
structure OutRecord where
  spaces : List PSpace
  connections : List POpening
  ventilationPaths : List (String × List PVPath)
deriving DecidableEq, Repr

/-- generate_space_data: the record literal evaluates spaces, then
connections (where the TypeError escapes), then the ventilation paths. -/
def generateSpaceData (spaces : List GSpaceIn) (openings : List GOpeningIn)
    (achRates : List (String × ℚ)) (ventPaths : List (String × List PathObj)) :
    Except String OutRecord := do
  let ps := processSpaces spaces achRates ventPaths
  let cs ← processOpenings openings
  Except.ok ⟨ps, cs, processVentilationPaths ventPaths⟩

/-- A space entry as read by validate_space_data. -/
structure VSpace where
  id : Option String
  volume : Option ℚ
  ventilationRate : Option ℚ
deriving DecidableEq, Repr

/-- A connection entry as read by validate_space_data. -/
structure VConn where
  id : Option String
  connects : List String
deriving DecidableEq, Repr

/-- Error events appended by validate_space_data (these decide validity). -/
inductive VErr where
  | spaceNoId : VErr
  | dupSpaceId : String → VErr
  | connNoId : VErr
  | dupConnId : String → VErr
  | danglingRef : String → String → VErr
deriving DecidableEq, Repr

/-- Warning events appended by validate_space_data (these never decide
validity). -/
inductive VWarn where
  | badVolume : String → ℚ → VWarn
  | negAch : String → ℚ → VWarn
  | highAch : String → ℚ → VWarn
deriving DecidableEq, Repr

/-- Loop body of the space pass of validate_space_data: a missing id is an
error that skips the remaining checks; a duplicate id is an error; volume ≤ 0
and ACH outside [0, 20] are warnings. -/
def vSpaceStep (acc : List VErr × List VWarn × Finset String) (s : VSpace) :
    List VErr × List VWarn × Finset String :=
  match s.id with
  | none => (acc.1 ++ [VErr.spaceNoId], acc.2.1, acc.2.2)
  | some i =>
      let es := if i ∈ acc.2.2 then acc.1 ++ [VErr.dupSpaceId i] else acc.1
      let seen2 := insert i acc.2.2
      let vol := s.volume.getD 0
      let ws1 := if vol ≤ 0 then acc.2.1 ++ [VWarn.badVolume i vol] else acc.2.1
      let ach := s.ventilationRate.getD 0
      let ws2 :=
        if ach < 0 then ws1 ++ [VWarn.negAch i ach]
        else if ach > 20 then ws1 ++ [VWarn.highAch i ach]
        else ws1
      (es, ws2, seen2)

/-- First pass of validate_space_data over the space list, threading the
seen-id set. -/
def vSpacePass (spaces : List VSpace) (seen : Finset String) :
    List VErr × List VWarn × Finset String :=
  spaces.foldl vSpaceStep ([], [], seen)

/-- Inner loop body of the connection pass: an endpoint that neither matches a
seen space id nor starts with the exterior marker is an error. -/
def vRefStep (spaceIds : Finset String) (i : String) (es3 : List VErr)
    (sid : String) : List VErr :=
  if sid ∉ spaceIds ∧ ¬ sid.startsWith "space_exterior" then
    es3 ++ [VErr.danglingRef i sid]
  else es3

/-- Loop body of the connection pass of validate_space_data: missing id skips
the remaining checks; duplicate ids and dangling endpoints are errors. -/
def vConnStep (spaceIds : Finset String) (acc : List VErr × Finset String)
    (c : VConn) : List VErr × Finset String :=
  match c.id with
  | none => (acc.1 ++ [VErr.connNoId], acc.2)
  | some i =>
      let es := if i ∈ acc.2 then acc.1 ++ [VErr.dupConnId i] else acc.1
      let seen2 := insert i acc.2
      (c.connects.foldl (vRefStep spaceIds i) es, seen2)

/-- Second pass of validate_space_data over the connection list, threading the
seen connection-id set (which starts empty). -/
def vConnPass (conns : List VConn) (spaceIds : Finset String) :
    List VErr × Finset String :=
  conns.foldl (vConnStep spaceIds) ([], ∅)

/-- Result of validate_space_data. -/
structure VResult where
  errors : List VErr
  warnings : List VWarn
  is_valid : Bool
deriving DecidableEq, Repr

/-- validate_space_data: is_valid holds exactly when no error was recorded;
warnings do not affect it. -/
def validateSpaceData (spaces : List VSpace) (conns : List VConn) : VResult :=
  let sp := vSpacePass spaces ∅
  let cp := vConnPass conns sp.2.2
  { errors := sp.1 ++ cp.1
    warnings := sp.2.1
    is_valid := decide (sp.1 ++ cp.1 = []) }

/-! ## SpaceDetector (src/space_analysis/space_detector.py) -/

/-- A voxel index triple. -/
abbrev Voxel := ℤ × ℤ × ℤ

/-- The six face-neighbour offsets used by _flood_fill_3d. -/
def nbrOffsets : List Voxel :=
  [(1, 0, 0), (-1, 0, 0), (0, 1, 0), (0, -1, 0), (0, 0, 1), (0, 0, -1)]

/-- The six face neighbours of a voxel. -/
def nbrs6 (p : Voxel) : List Voxel :=
  nbrOffsets.map (fun d => (p.1 + d.1, p.2.1 + d.2.1, p.2.2 + d.2.2))

/-- Bounds check 0 ≤ i < shape for each axis. -/
def inShape (sh : ℕ × ℕ × ℕ) (p : Voxel) : Bool :=
  0 ≤ p.1 && p.1 < (sh.1 : ℤ) && 0 ≤ p.2.1 && p.2.1 < (sh.2.1 : ℤ) &&
    0 ≤ p.2.2 && p.2.2 < (sh.2.2 : ℤ)

/-- Breadth-first loop of _flood_fill_3d: tr is the list of still-True (empty)
voxels, q the work queue; a popped True voxel is cleared and its in-bounds
still-True neighbours are appended. -/
def ffLoop (sh : ℕ × ℕ × ℕ) : List Voxel → List Voxel → List Voxel
  | tr, [] => tr
  | tr, p :: q =>
    if hp : p ∈ tr then
      ffLoop sh (tr.erase p)
        (q ++ (nbrs6 p).filter (fun n => inShape sh n && n ∈ tr.erase p))
    else ffLoop sh tr q
termination_by tr q => (tr.length, q.length)
decreasing_by
  · exact Prod.Lex.left _ _
      (by rw [List.length_erase_of_mem hp]
          exact Nat.sub_lt (List.length_pos.mpr (List.ne_nil_of_mem hp)) Nat.one_pos)
  · exact Prod.Lex.right _ (Nat.lt_succ_self _)

/-- _flood_fill_3d(grid, start): early return when the start voxel is not
empty, otherwise the breadth-first clearing loop. -/
def floodFill3d (sh : ℕ × ℕ × ℕ) (tr : List Voxel) (start : Voxel) : List Voxel :=
  if start ∈ tr then ffLoop sh tr [start] else tr

/-- _remove_external_space: flood-fill from every seed.  The seed list is a
parameter because the source subsamples the boundary seeds with an unseeded
np.random.shuffle whenever more than max_seed_points exist. -/
def removeExternalSpace (sh : ℕ × ℕ × ℕ) (seeds : List Voxel) (tr : List Voxel) :
    List Voxel :=
  seeds.foldl (floodFill3d sh) tr

/-- The empty-voxel list ¬occupancy of a grid of the given shape, in the
C scan order numpy uses. -/
def emptyCells (sh : ℕ × ℕ × ℕ) (occ : Finset Voxel) : List Voxel :=
  ((List.range sh.1).flatMap (fun i =>
    (List.range sh.2.1).flatMap (fun j =>
      (List.range sh.2.2).map (fun k => (((i : ℤ), (j : ℤ), (k : ℤ)) : Voxel))))).filter
    (fun p => p ∉ occ)

/-- Face neighbours of a voxel that lie in the given list (6-connectivity of
find_connected_components). -/
def cellNbrsIn (tr : List Voxel) (p : Voxel) : List Voxel :=
  (nbrs6 p).filter (fun n => n ∈ tr)

/-- Connected component of one voxel inside tr. -/
def componentOfCell (tr : List Voxel) (p : Voxel) : Finset Voxel :=
  niter (cellNbrsIn tr) tr.length {p}

/-- find_connected_components with 6-connectivity: the distinct components
of the cell list, one per label, in scan order. -/
def gridComponents (tr : List Voxel) : List (Finset Voxel) :=
  (tr.map (componentOfCell tr)).dedup

/-- detect_spaces up to the voxel sets: invert the occupancy grid, remove
the exterior by flood fill, label components, drop those below the minimum
volume (default min_space_volume = 5 with base_voxel_size = 1). -/
def detectSpaceComponents (sh : ℕ × ℕ × ℕ) (occ : Finset Voxel) (seeds : List Voxel) :
    List (Finset Voxel) :=
  (gridComponents (removeExternalSpace sh seeds (emptyCells sh occ))).filter
    (fun c => ¬ ((c.card : ℚ) < 5))

/-- A space record as consumed by _merge_spaces. -/
structure MSpace where
  id : String
  volume : ℚ
  voxel_indices : List Voxel
deriving DecidableEq, Repr

/-- Lexicographic voxel comparison (the order np.unique sorts rows into). -/
def voxLexLe (a b : Voxel) : Bool :=
  a.1 < b.1 ∨ (a.1 = b.1 ∧ (a.2.1 < b.2.1 ∨ (a.2.1 = b.2.1 ∧ a.2.2 ≤ b.2.2)))

/-- _merge_spaces: the merged id embeds the first eight hex digits of a
fresh uuid4 value, modelled as the parameter uuidHex; the voxel union is
deduplicated and sorted (np.unique), the volume is the plain sum of the
source volumes. -/
def mergeSpaces (uuidHex : String) (spaces : List MSpace) : MSpace :=
  { id := "space_merged_" ++ (uuidHex.toList.take 8).asString
    volume := (spaces.map MSpace.volume).sum
    voxel_indices := ((spaces.flatMap MSpace.voxel_indices).dedup).mergeSort voxLexLe }

/-! ## geometry_utils.compute_opening_features (src/utils/geometry_utils.py) -/

/-- The six numeric features of the early-return dictionary. -/
structure OpeningFeatures where
  area : ℚ
  perimeter : ℚ
  width : ℚ
  height : ℚ
  aspect_ratio : ℚ
  circularity : ℚ
deriving DecidableEq, Repr

/-- The all-zero feature dictionary returned for degenerate input. -/
def zeroOpeningFeatures : OpeningFeatures :=
  ⟨0, 0, 0, 0, 0, 0⟩

/-- compute_opening_features: fewer than three vertices short-circuits to
the zero dictionary; the general branch (convex hull, PCA projection) is
beyond exact arithmetic and is abstracted as the parameter rest. -/
def computeOpeningFeatures (rest : List (ℚ × ℚ × ℚ) → OpeningFeatures)
    (vertices : List (ℚ × ℚ × ℚ)) : OpeningFeatures :=
  if vertices.length < 3 then zeroOpeningFeatures else rest vertices

/-! ## Derived definitions used by the statements -/

/-- Well-formedness of a networkx graph: every edge endpoint is a node
(networkx add_edge inserts missing endpoints as nodes; every graph the
pipeline builds satisfies this). -/
def wfGraph (g : Graph) : Prop :=
  ∀ e ∈ g.edges, e.u ∈ g.nodes ∧ e.v ∈ g.nodes

/-- Estimated opening area summed along a route, written directly from the
graph: every opening of an edge contributes the reciprocal of that edge's
composite weight. -/
def routeEstAreaSum (g : Graph) (route : List String) : ℚ :=
  ((routePairs route).map
    (fun ab => ((edgeOpeningsOf g ab.1 ab.2).length : ℚ) * estArea (edgeWeightOf g ab.1 ab.2))).sum

/-- Area of the opening with the given id in the input opening list. -/
def openingAreaOf (openings : List OpeningIn) (oid : String) : ℚ :=
  (((openings.find? (fun o => o.id = oid)).bind OpeningIn.area)).getD 0

/-- Modelled from the spec: the sum of the areas of the openings traversed
by a path, the quantity the specification says the area factor is built
from (the source instead estimates each area as 1/edge_weight). -/
def specTraversedAreaSum (openings : List OpeningIn) (p : PathObj) : ℚ :=
  (p.via.map (openingAreaOf openings)).sum

/-- Concrete spaces for the path-enumeration counterexample. -/
def c3Spaces : List SpaceIn :=
  [⟨"s", some 10⟩, ⟨"a", some 10⟩, ⟨"b1", some 10⟩, ⟨"b2", some 10⟩,
   ⟨"b3", some 10⟩, ⟨"b4", some 10⟩, ⟨"b5", some 10⟩]

/-- Concrete openings for the path-enumeration counterexample: a heavy hub
branch enumerated first, a light direct window enumerated sixth. -/
def c3Openings : List OpeningIn :=
  [⟨"o1", ["s", "a"], some (1 / 10), "door"⟩,
   ⟨"o2", ["a", "b1"], some (1 / 10), "door"⟩,
   ⟨"o3", ["a", "b2"], some (1 / 10), "door"⟩,
   ⟨"o4", ["a", "b3"], some (1 / 10), "door"⟩,
   ⟨"o5", ["a", "b4"], some (1 / 10), "door"⟩,
   ⟨"o6", ["a", "b5"], some (1 / 10), "door"⟩,
   ⟨"o7", ["b1"], some (1 / 10), "window"⟩,
   ⟨"o8", ["b2"], some (1 / 10), "window"⟩,
   ⟨"o9", ["b3"], some (1 / 10), "window"⟩,
   ⟨"o10", ["b4"], some (1 / 10), "window"⟩,
   ⟨"o11", ["b5"], some (1 / 10), "window"⟩,
   ⟨"o12", ["s"], some 2, "window"⟩]

/-- The topology graph of the path-enumeration counterexample. -/
def c3Graph : Graph :=
  (buildTopology c3Spaces c3Openings).1

/-- The ventilation paths the calculator retains for space s of the
counterexample graph. -/
def c3Out : List PathObj :=
  findVentilationPaths c3Graph "s" [exteriorId]

/-- Concrete spaces for the area-factor counterexample. -/
def c4Spaces : List SpaceIn :=
  [⟨"s4", some 10⟩]

/-- Concrete openings for the area-factor counterexample: one edge to the
exterior carrying two openings of areas 2 and 1. -/
def c4Openings : List OpeningIn :=
  [⟨"oa", ["s4"], some 2, "window"⟩, ⟨"ob", ["s4"], some 1, "window"⟩]

/-- The topology graph of the area-factor counterexample. -/
def c4Graph : Graph :=
  (buildTopology c4Spaces c4Openings).1

/-- The ventilation paths for space s4 of the area-factor counterexample. -/
def c4Out : List PathObj :=
  findVentilationPaths c4Graph "s4" [exteriorId]

/-- Concrete calculator state for the opening-state witness. -/
def c7State : CalcState :=
  ⟨[("sp1", 4), ("sp2", 6)],
   [("sp1", [⟨["sp1", "space_exterior"], ["o1"], [], 1, 1, 1, 1, "space_exterior"⟩]),
    ("sp2", [⟨["sp2", "space_exterior"], ["o2"], [], 1, 1, 1, 1, "space_exterior"⟩])]⟩

/-! ## Closure lemmas -/

/-- The closure step only grows the set. -/
theorem nstep_subset_self {α : Type} [DecidableEq α] (nb : α → List α) (s : Finset α) :
    s ⊆ nstep nb s :=
  Finset.subset_union_left

/-- Membership in one closure step. -/
theorem mem_nstep_iff {α : Type} [DecidableEq α] (nb : α → List α) (s : Finset α) (b : α) :
    b ∈ nstep nb s ↔ b ∈ s ∨ ∃ a ∈ s, b ∈ nb a := by
  simp [nstep, Finset.mem_union, Finset.mem_biUnion, List.mem_toFinset]

/-- The closure step is monotone. -/
theorem nstep_mono {α : Type} [DecidableEq α] (nb : α → List α) {s t : Finset α}
    (h : s ⊆ t) : nstep nb s ⊆ nstep nb t := by
  intro b hb
  rcases (mem_nstep_iff nb s b).mp hb with hb | ⟨a, ha, hab⟩
  · exact (mem_nstep_iff nb t b).mpr (Or.inl (h hb))
  · exact (mem_nstep_iff nb t b).mpr (Or.inr ⟨a, h ha, hab⟩)

/-- Iterated closure contains the start set. -/
theorem niter_subset_self {α : Type} [DecidableEq α] (nb : α → List α) (n : ℕ)
    (s : Finset α) : s ⊆ niter nb n s := by
  induction n generalizing s with
  | zero => exact fun _ h => h
  | succ n ih => exact fun b hb => ih (nstep nb s) (nstep_subset_self nb s hb)

/-- Iterated closure is monotone in the start set. -/
theorem niter_mono_set {α : Type} [DecidableEq α] (nb : α → List α) (n : ℕ)
    {s t : Finset α} (h : s ⊆ t) : niter nb n s ⊆ niter nb n t := by
  induction n generalizing s t with
  | zero => exact h
  | succ n ih => exact ih (nstep_mono nb h)

/-- Stepping commutes with iteration. -/
theorem niter_nstep_comm {α : Type} [DecidableEq α] (nb : α → List α) (n : ℕ)
    (s : Finset α) : niter nb n (nstep nb s) = nstep nb (niter nb n s) := by
  induction n generalizing s with
  | zero => rfl
  | succ n ih =>
      show niter nb n (nstep nb (nstep nb s)) = nstep nb (niter nb n (nstep nb s))
      exact ih (nstep nb s)

/-- Successor unfolding from the outside. -/
theorem niter_succ_eq {α : Type} [DecidableEq α] (nb : α → List α) (n : ℕ)
    (s : Finset α) : niter nb (n + 1) s = nstep nb (niter nb n s) :=
  niter_nstep_comm nb n s

/-- Iterated closure is monotone in the fuel. -/
theorem niter_fuel_mono {α : Type} [DecidableEq α] (nb : α → List α) {m n : ℕ}
    (h : m ≤ n) (s : Finset α) : niter nb m s ⊆ niter nb n s := by
  induction n with
  | zero => cases Nat.le_zero.mp h; exact fun _ hb => hb
  | succ n ih =>
      rcases Nat.lt_succ_iff_lt_or_eq.mp (Nat.lt_succ_of_le h) with h2 | h2
      · intro b hb
        rw [niter_succ_eq]
        exact nstep_subset_self nb _ (ih (Nat.lt_succ_iff.mp h2) hb)
      · subst h2; exact fun _ hb => hb

/-- Everything in the iterated closure is reachable from the start set. -/
theorem niter_sound {α : Type} [DecidableEq α] (nb : α → List α) (n : ℕ)
    (s : Finset α) (b : α) (hb : b ∈ niter nb n s) : ∃ a ∈ s, Reaches nb a b := by
  induction n generalizing s with
  | zero => exact ⟨b, hb, Relation.ReflTransGen.refl⟩
  | succ n ih =>
      rcases ih (nstep nb s) hb with ⟨a, ha, hr⟩
      rcases (mem_nstep_iff nb s a).mp ha with ha2 | ⟨c, hc, hca⟩
      · exact ⟨a, ha2, hr⟩
      · exact ⟨c, hc, Relation.ReflTransGen.head hca hr⟩

/-- A set closed under the neighbour function absorbs reachability. -/
theorem reach_mem_of_closed {α : Type} (nb : α → List α) (S : Set α)
    (hcl : ∀ a ∈ S, ∀ b ∈ nb a, b ∈ S) {a b : α} (ha : a ∈ S)
    (h : Reaches nb a b) : b ∈ S := by
  induction h with
  | refl => exact ha
  | tail _ hcb ih => exact hcl _ ih _ hcb

/-- The iterated closure stays inside any closed superset of the start. -/
theorem niter_subset_closed {α : Type} [DecidableEq α] (nb : α → List α) (n : ℕ)
    {s U : Finset α} (hU : ∀ a, ∀ b ∈ nb a, b ∈ U) (hs : s ⊆ U) :
    niter nb n s ⊆ U := by
  induction n generalizing s with
  | zero => exact hs
  | succ n ih =>
      refine ih ?_
      intro b hb
      rcases (mem_nstep_iff nb s b).mp hb with hb | ⟨a, _, hab⟩
      · exact hs hb
      · exact hU a b hab

/-- Without a fixed point up to n, the closure has gained n elements. -/
theorem niter_card_growth {α : Type} [DecidableEq α] (nb : α → List α) (n : ℕ)
    (s : Finset α) (h : ∀ j < n, nstep nb (niter nb j s) ≠ niter nb j s) :
    n ≤ (niter nb n s).card := by
  induction n with
  | zero => exact Nat.zero_le _
  | succ n ih =>
      have h1 : n ≤ (niter nb n s).card := ih (fun j hj => h j (Nat.lt_succ_of_lt hj))
      have h2 : niter nb n s ⊂ niter nb (n + 1) s := by
        rw [niter_succ_eq]
        exact Finset.ssubset_iff_subset_ne.mpr
          ⟨nstep_subset_self nb _, fun he => h n (Nat.lt_succ_self n) he.symm⟩
      exact Nat.succ_le_of_lt (Nat.lt_of_le_of_lt h1 (Finset.card_lt_card h2))

/-- A fixed point of the closure step is reached within card U steps. -/
theorem niter_fixed_exists {α : Type} [DecidableEq α] (nb : α → List α)
    {s U : Finset α} (hU : ∀ a, ∀ b ∈ nb a, b ∈ U) (hs : s ⊆ U) :
    ∃ j ≤ U.card, nstep nb (niter nb j s) = niter nb j s := by
  by_contra hc
  push_neg at hc
  have h : ∀ j < U.card + 1, nstep nb (niter nb j s) ≠ niter nb j s :=
    fun j hj => hc j (Nat.lt_succ_iff.mp hj)
  have h1 := niter_card_growth nb (U.card + 1) s h
  have h2 : (niter nb (U.card + 1) s).card ≤ U.card :=
    Finset.card_le_card (niter_subset_closed nb _ hU hs)
  omega

/-- A fixed point persists under further fuel. -/
theorem niter_fixed_persists {α : Type} [DecidableEq α] (nb : α → List α)
    {j : ℕ} {s : Finset α} (hfix : nstep nb (niter nb j s) = niter nb j s)
    {m : ℕ} (hm : j ≤ m) : niter nb m s = niter nb j s := by
  induction m with
  | zero => cases Nat.le_zero.mp hm; rfl
  | succ m ih =>
      rcases Nat.lt_succ_iff_lt_or_eq.mp (Nat.lt_succ_of_le hm) with h2 | h2
      · have h3 := ih (Nat.lt_succ_iff.mp h2)
        rw [niter_succ_eq, h3, hfix]
      · subst h2; rfl

/-- Completeness: with fuel card U, the closure reaches every reachable
element (U any closed superset of the start set). -/
theorem niter_complete {α : Type} [DecidableEq α] (nb : α → List α)
    {s U : Finset α} (hU : ∀ a, ∀ b ∈ nb a, b ∈ U) (hs : s ⊆ U)
    {a b : α} (ha : a ∈ s) (hr : Reaches nb a b) : b ∈ niter nb U.card s := by
  rcases niter_fixed_exists nb hU hs with ⟨j, hj, hfix⟩
  rw [niter_fixed_persists nb hfix hj]
  have hcl : ∀ x ∈ (niter nb j s : Finset α), ∀ y ∈ nb x, y ∈ (niter nb j s : Finset α) := by
    intro x hx y hy
    rw [← hfix]
    exact (mem_nstep_iff nb _ y).mpr (Or.inr ⟨x, hx, hy⟩)
  exact reach_mem_of_closed nb (fun z => z ∈ niter nb j s) hcl
    (niter_subset_self nb j s ha) hr

/-! ## Degenerate-input behaviour of compute_opening_features (claim C10) -/

/-- C10: for every input with fewer than 3 vertices, compute_opening_features
does not raise and returns a feature dictionary with area, perimeter, width,
height, aspect_ratio and circularity all equal to 0.0.  The guard branch is
total in the model; rest stands for the (unreached) general branch. -/
theorem computeOpeningFeatures_degenerate
    (rest : List (ℚ × ℚ × ℚ) → OpeningFeatures) (vertices : List (ℚ × ℚ × ℚ))
    (h : vertices.length < 3) :
    computeOpeningFeatures rest vertices = ⟨0, 0, 0, 0, 0, 0⟩ := by
  simp [computeOpeningFeatures, h, zeroOpeningFeatures]

/-- Witness for C10 at the concrete two-vertex input. -/
theorem computeOpeningFeatures_degenerate_witness :
    [((0 : ℚ), (0 : ℚ), (0 : ℚ)), (1, 0, 0)].length < 3 ∧
      computeOpeningFeatures (fun _ => ⟨1, 2, 3, 4, 5, 6⟩)
        [((0 : ℚ), (0 : ℚ), (0 : ℚ)), (1, 0, 0)] = ⟨0, 0, 0, 0, 0, 0⟩ :=
  ⟨by decide,
   computeOpeningFeatures_degenerate (fun _ => ⟨1, 2, 3, 4, 5, 6⟩)
     [((0 : ℚ), (0 : ℚ), (0 : ℚ)), (1, 0, 0)] (by decide)⟩

/-! ## Nondeterministic merged-space ids (claim C6) -/

/-- C6 fails on the code: _merge_spaces names the merged space after a fresh
uuid4 value, so re-running the pipeline on the same input yields different
space ids whenever a merge occurs (the flood-fill seed subsampling via an
unseeded np.random.shuffle is a second source of run-to-run divergence).
This theorem evaluates the code at one failing input: the same two spaces
merged under two different draws of the random source yield different ids. -/
theorem mergeSpaces_id_nondeterministic :
    (mergeSpaces "0123abcd" [⟨"space_000", 6, [(0, 0, 0)]⟩, ⟨"space_001", 6, [(1, 0, 0)]⟩]).id ≠
      (mergeSpaces "4567ef89" [⟨"space_000", 6, [(0, 0, 0)]⟩, ⟨"space_001", 6, [(1, 0, 0)]⟩]).id := by
  decide

/-! ## The broken connections back-fill (claim C8) -/

/-- C8 fails on the code: _process_openings iterates over the bound method
self._process_spaces instead of the processed space list, so as soon as one
opening has a nonempty endpoint list generate_space_data raises TypeError
and no record is returned; the connections field of every space entry stays
the empty list it was initialised to. -/
theorem generateSpaceData_typeerror :
    generateSpaceData [⟨"space_001", some "room", some 100, none, none⟩]
      [⟨"opening_001", some "door", ["space_001"], none, some 2, none⟩]
      [("space_001", 17 / 2)] [("space_001", [])] =
      Except.error "TypeError: argument of type method is not iterable" := rfl

/-! ## Path retention is first-five, not five-smallest (claim C3) -/

/-- C3 as stated is false on the code: _find_ventilation_paths truncates the
enumeration to its first five paths before sorting, so the retained paths
need not be the five smallest-weight ones.  On the concrete graph c3Graph
the one-hop path to the exterior of weight 1/2 is enumerated sixth and
dropped, while five paths of weight 30 are retained. -/
theorem findVentilationPaths_not_five_smallest :
    ["s", exteriorId] ∈ allSimplePathsTo c3Graph "s" exteriorId 6 ∧
      (mkPathObj c3Graph exteriorId ["s", exteriorId]).weight = 1 / 2 ∧
      c3Out.length = 5 ∧
      (∀ p ∈ c3Out, p.weight = 30) ∧
      ["s", exteriorId] ∉ c3Out.map PathObj.route := by
  norm_num +decide [c3Out, c3Graph, buildTopology, buildGraphRaw, c3Spaces, c3Openings, topoNodes,
    addNodeIfAbsent, insertOpening, openingWeight, hasEdgeB, findEdge, edgeMatches, replaceEdge,
    updEdgeData, exteriorId, validateTopology, graphComponents, reachSetOf, closureFuel, niter,
    nstep, adjList, spacePropsOf, setA, lookupA, pickLargest, repairEdge, findIsolatedSpaces,
    hasPathB, findVentilationPaths, allSimplePathsTo, spVisit, spLevel, mkPathObj, routePairs,
    edgeOpeningInfos, edgeOpeningsOf, edgeTypesOf, edgeWeightOf, openingTypeOf, estArea,
    List.insertionSort, List.orderedInsert, pathDecayFactor]

/-! ## Area factor uses estimated, not true, opening areas (claim C4) -/

/-- C4 as stated is false on the code: the base of the opening-influence
power is the sum of per-opening estimates 1/edge_weight, not the sum of the
true opening areas.  On c4Graph one edge carries two openings of areas 2
and 1 (edge weight min(1/2, 1) = 1/2); the code gives each opening the
estimated area 2, so the power is applied to 4 where the claim demands 3 —
and x ^ 0.7 is strictly monotone on positives, so the contributions differ. -/
theorem totalOpeningArea_ne_true_area_sum :
    c4Out.length = 1 ∧
      (∀ p ∈ c4Out, p.total_opening_area = 4 ∧ specTraversedAreaSum c4Openings p = 3) := by
  norm_num +decide [c4Out, c4Graph, buildTopology, buildGraphRaw, c4Spaces, c4Openings, topoNodes,
    addNodeIfAbsent, insertOpening, openingWeight, hasEdgeB, findEdge, edgeMatches, replaceEdge,
    updEdgeData, exteriorId, validateTopology, graphComponents, reachSetOf, closureFuel, niter,
    nstep, adjList, spacePropsOf, setA, lookupA, pickLargest, repairEdge, findIsolatedSpaces,
    hasPathB, findVentilationPaths, allSimplePathsTo, spVisit, spLevel, mkPathObj, routePairs,
    edgeOpeningInfos, edgeOpeningsOf, edgeTypesOf, edgeWeightOf, openingTypeOf, estArea,
    List.insertionSort, List.orderedInsert, specTraversedAreaSum, openingAreaOf, pathDecayFactor]

/-! ## Exterior removal only clears voxels (claim C9) -/

/-- The flood-fill loop only removes voxels from the True set. -/
theorem ffLoop_subset (sh : ℕ × ℕ × ℕ) (tr q : List Voxel) : ffLoop sh tr q ⊆ tr := by
  induction tr, q using ffLoop.induct sh with
  | case1 tr => rw [ffLoop]; exact fun _ h => h
  | case2 tr p q hp ih =>
      rw [ffLoop]
      simp only [hp, dif_pos]
      exact fun x hx => List.erase_subset p tr (ih hx)
  | case3 tr p q hp ih =>
      rw [ffLoop]
      simp only [hp, dif_neg, not_false_iff]
      exact ih

/-- One flood fill only removes voxels. -/
theorem floodFill3d_subset (sh : ℕ × ℕ × ℕ) (tr : List Voxel) (start : Voxel) :
    floodFill3d sh tr start ⊆ tr := by
  unfold floodFill3d
  split
  · exact ffLoop_subset sh tr [start]
  · exact fun _ h => h

/-- Exterior removal is pointwise implied by its input, for every seed list. -/
theorem removeExternalSpace_subset (sh : ℕ × ℕ × ℕ) (seeds : List Voxel)
    (tr : List Voxel) : removeExternalSpace sh seeds tr ⊆ tr := by
  induction seeds generalizing tr with
  | nil => exact fun _ h => h
  | cons s rest ih =>
      intro x hx
      exact floodFill3d_subset sh tr s (ih (floodFill3d sh tr s) hx)

/-- Every component of a cell list stays inside the list. -/
theorem componentOfCell_subset (tr : List Voxel) (p : Voxel) (hp : p ∈ tr) :
    ∀ x ∈ componentOfCell tr p, x ∈ tr := by
  intro x hx
  unfold componentOfCell at hx
  have hU : ∀ a : Voxel, ∀ b ∈ cellNbrsIn tr a, b ∈ tr.toFinset := by
    intro a b hb
    simp only [cellNbrsIn, List.mem_filter, decide_eq_true_eq] at hb
    exact List.mem_toFinset.mpr hb.2
  have hs : ({p} : Finset Voxel) ⊆ tr.toFinset := by
    simp [Finset.singleton_subset_iff, List.mem_toFinset, hp]
  exact List.mem_toFinset.mp (niter_subset_closed (cellNbrsIn tr) tr.length hU hs hx)

/-- Every labelled component consists of cells of the labelled list. -/
theorem gridComponents_subset (tr : List Voxel) :
    ∀ c ∈ gridComponents tr, ∀ x ∈ c, x ∈ tr := by
  intro c hc x hx
  rcases List.mem_map.mp (List.mem_dedup.mp hc) with ⟨p, hp, hcp⟩
  exact componentOfCell_subset tr p hp x (hcp ▸ hx)

/-- Empty cells are exactly the in-bounds non-occupied voxels. -/
theorem emptyCells_not_occ (sh : ℕ × ℕ × ℕ) (occ : Finset Voxel) :
    ∀ x ∈ emptyCells sh occ, x ∉ occ := by
  intro x hx
  have := (List.mem_filter.mp hx).2
  simpa using this

/-- C9: exterior removal never creates empty voxels — the returned grid is
pointwise implied by its input for every seed list (flood fill only clears),
and consequently every detected space's voxel set avoids the occupancy
grid. -/
theorem removeExternalSpace_monotone (sh : ℕ × ℕ × ℕ) (seeds : List Voxel) :
    (∀ tr : List Voxel, removeExternalSpace sh seeds tr ⊆ tr) ∧
      ∀ occ : Finset Voxel, ∀ c ∈ detectSpaceComponents sh occ seeds, ∀ x ∈ c, x ∉ occ := by
  refine ⟨removeExternalSpace_subset sh seeds, ?_⟩
  intro occ c hc x hx
  have h1 : c ∈ gridComponents (removeExternalSpace sh seeds (emptyCells sh occ)) :=
    (List.mem_filter.mp hc).1
  have h2 : x ∈ removeExternalSpace sh seeds (emptyCells sh occ) :=
    gridComponents_subset _ c h1 x hx
  exact emptyCells_not_occ sh occ x (removeExternalSpace_subset sh seeds _ h2)

set_option maxRecDepth 4000 in
/-- Witness for C9 on a 1×1×6 tube whose far cell is occupied: the five
empty cells form one detected component, the exterior removal with an empty
sampled seed list keeps them, and the component avoids the occupied cell. -/
theorem removeExternalSpace_monotone_witness :
    componentOfCell (emptyCells (1, 1, 6) {((0 : ℤ), (0 : ℤ), (5 : ℤ))})
        ((0 : ℤ), (0 : ℤ), (0 : ℤ)) ∈
      detectSpaceComponents (1, 1, 6) {((0 : ℤ), (0 : ℤ), (5 : ℤ))} [] ∧
    ((0 : ℤ), (0 : ℤ), (0 : ℤ)) ∈
      componentOfCell (emptyCells (1, 1, 6) {((0 : ℤ), (0 : ℤ), (5 : ℤ))})
        ((0 : ℤ), (0 : ℤ), (0 : ℤ)) ∧
    (((0 : ℤ), (0 : ℤ), (0 : ℤ)) : Voxel) ∉ ({((0 : ℤ), (0 : ℤ), (5 : ℤ))} : Finset Voxel) := by
  have hmem : componentOfCell (emptyCells (1, 1, 6) {((0 : ℤ), (0 : ℤ), (5 : ℤ))})
      ((0 : ℤ), (0 : ℤ), (0 : ℤ)) ∈
      detectSpaceComponents (1, 1, 6) {((0 : ℤ), (0 : ℤ), (5 : ℤ))} [] := by
    unfold detectSpaceComponents
    rw [List.mem_filter]
    constructor
    · decide
    · have hcard : (componentOfCell (emptyCells (1, 1, 6) {((0 : ℤ), (0 : ℤ), (5 : ℤ))})
          ((0 : ℤ), (0 : ℤ), (0 : ℤ))).card = 5 := by decide
      rw [hcard]
      norm_num
  have hx : ((0 : ℤ), (0 : ℤ), (0 : ℤ)) ∈
      componentOfCell (emptyCells (1, 1, 6) {((0 : ℤ), (0 : ℤ), (5 : ℤ))})
        ((0 : ℤ), (0 : ℤ), (0 : ℤ)) := by decide
  exact ⟨hmem, hx,
    (removeExternalSpace_monotone (1, 1, 6) []).2 {((0 : ℤ), (0 : ℤ), (5 : ℤ))} _ hmem _ hx⟩

/-! ## Opening-state override (claim C7) -/

/-- Lookup after a dict write. -/
theorem lookupA_setA {β : Type} (m : List (String × β)) (k k2 : String) (v : β) :
    lookupA (setA m k v) k2 = if k2 = k then some v else lookupA m k2 := by
  induction m with
  | nil =>
      by_cases h : k2 = k
      · subst h; simp [setA, lookupA]
      · simp [setA, lookupA, h, Ne.symm h]
  | cons kv t ih =>
      by_cases hk : kv.1 = k
      · by_cases h : k2 = k
        · subst h; simp [setA, lookupA, hk]
        · have hkv : ¬ kv.1 = k2 := fun hh => h (hk ▸ hh).symm
          simp [setA, lookupA, List.find?, hk, h, Ne.symm h, hkv]
      · by_cases h : k2 = kv.1
        · have hne : ¬ k2 = k := fun he => hk (h.symm.trans he)
          simp [setA, lookupA, List.find?, hk, hne, h.symm]
        · have hkv : ¬ kv.1 = k2 := fun hh => h hh.symm
          simp only [setA, if_neg hk]
          have e1 : lookupA (kv :: setA t k v) k2 = lookupA (setA t k v) k2 := by
            simp [lookupA, List.find?, hkv]
          have e2 : lookupA (kv :: t) k2 = lookupA t k2 := by
            simp [lookupA, List.find?, hkv]
          rw [e1, e2, ih]

/-- A dict write never removes a key. -/
theorem lookupA_setA_isSome {β : Type} (m : List (String × β)) (k k2 : String) (v : β)
    (h : (lookupA m k2).isSome) : (lookupA (setA m k v) k2).isSome := by
  rw [lookupA_setA]
  by_cases h2 : k2 = k <;> simp [h2, h]

/-- Fold characterisation of update_ach_for_opening_state: with every path
key present among the stored rates and pairwise-distinct path keys, the
fold succeeds, scales the rate of every affected space by 0.7 and leaves
every other binding untouched. -/
theorem updateAch_fold (os : List (String × String)) :
    ∀ (l : List (String × List PathObj)) (rates : List (String × ℚ)),
      (∀ sp ∈ l, (lookupA rates sp.1).isSome) → (l.map Prod.fst).Nodup →
      ∃ m, updateAchForOpeningState ⟨rates, l⟩ os = Except.ok m ∧
        (∀ k, k ∉ l.map Prod.fst → lookupA m k = lookupA rates k) ∧
        (∀ sp ∈ l,
          lookupA m sp.1 =
            if sp.2.any (fun p => p.via.any (fun oid => lookupA os oid = some "closed"))
            then (lookupA rates sp.1).map (fun v => v * (7 / 10))
            else lookupA rates sp.1) := by
  intro l
  induction l with
  | nil =>
      intro rates _ _
      exact ⟨rates, rfl, fun k _ => rfl, fun sp hsp => absurd hsp (List.not_mem_nil sp)⟩
  | cons sp t ih =>
      intro rates hpres hnd
      have hnd2 : (t.map Prod.fst).Nodup := (List.nodup_cons.mp hnd).2
      have hsp1 : sp.1 ∉ t.map Prod.fst := (List.nodup_cons.mp hnd).1
      by_cases haff : sp.2.any (fun p => p.via.any (fun oid => lookupA os oid = some "closed"))
      · rcases Option.isSome_iff_exists.mp (hpres sp (List.mem_cons_self sp t)) with ⟨v, hv⟩
        have hstep : updateAchForOpeningState ⟨rates, sp :: t⟩ os =
            updateAchForOpeningState ⟨setA rates sp.1 (v * (7 / 10)), t⟩ os := by
          simp only [updateAchForOpeningState, List.foldlM_cons]
          rw [if_pos haff, hv]
          rfl
        have hpres2 : ∀ q ∈ t, (lookupA (setA rates sp.1 (v * (7 / 10))) q.1).isSome :=
          fun q hq => lookupA_setA_isSome rates sp.1 q.1 _
            (hpres q (List.mem_cons_of_mem sp hq))
        rcases ih (setA rates sp.1 (v * (7 / 10))) hpres2 hnd2 with ⟨m, hm, hout, hin⟩
        refine ⟨m, hstep ▸ hm, ?_, ?_⟩
        · intro k hk
          have hk1 : k ≠ sp.1 := fun he => hk (he ▸ List.mem_cons_self _ _)
          have hk2 : k ∉ t.map Prod.fst := fun he => hk (List.mem_cons_of_mem _ he)
          rw [hout k hk2, lookupA_setA, if_neg hk1]
        · intro q hq
          rcases List.mem_cons.mp hq with he | hq2
          · subst he
            rw [hout q.1 hsp1, lookupA_setA, if_pos rfl, haff]
            simp [hv]
          · have hne : q.1 ≠ sp.1 := by
              intro he
              exact hsp1 (he ▸ List.mem_map_of_mem Prod.fst hq2)
            rw [hin q hq2, lookupA_setA, if_neg hne]
      · have hstep : updateAchForOpeningState ⟨rates, sp :: t⟩ os =
            updateAchForOpeningState ⟨rates, t⟩ os := by
          simp only [updateAchForOpeningState, List.foldlM_cons]
          rw [if_neg haff]
          rfl
        have hpres2 : ∀ q ∈ t, (lookupA rates q.1).isSome :=
          fun q hq => hpres q (List.mem_cons_of_mem sp hq)
        rcases ih rates hpres2 hnd2 with ⟨m, hm, hout, hin⟩
        refine ⟨m, hstep ▸ hm, ?_, ?_⟩
        · intro k hk
          exact hout k (fun he => hk (List.mem_cons_of_mem _ he))
        · intro q hq
          rcases List.mem_cons.mp hq with he | hq2
          · subst he
            rw [if_neg (by exact fun hc => haff hc), hout q.1 hsp1]
          · exact hin q hq2

/-- C7: for every opening-state map, update_ach_for_opening_state returns a
derived map in which every space whose path list traverses a closed opening
has 0.7 times its stored rate, every other binding is unchanged, and the
calculator's stored state is returned untouched.  The hypotheses state the
consistency calculate_ach_rates always establishes: every path key has a
stored rate and path keys are pairwise distinct (Python dict keys). -/
theorem updateAchForOpeningState_spec (st : CalcState) (os : List (String × String))
    (hpres : ∀ sp ∈ st.ventilationPaths, (lookupA st.achRates sp.1).isSome)
    (hnd : (st.ventilationPaths.map Prod.fst).Nodup) :
    (updateAchMethod st os).1 = st ∧
      ∃ m, (updateAchMethod st os).2 = Except.ok m ∧
        (∀ sp ∈ st.ventilationPaths,
          lookupA m sp.1 =
            if sp.2.any (fun p => p.via.any (fun oid => lookupA os oid = some "closed"))
            then (lookupA st.achRates sp.1).map (fun v => v * (7 / 10))
            else lookupA st.achRates sp.1) ∧
        (∀ k, k ∉ st.ventilationPaths.map Prod.fst →
          lookupA m k = lookupA st.achRates k) := by
  obtain ⟨rates, vents⟩ := st
  rcases updateAch_fold os vents rates hpres hnd with ⟨m, hm, hout, hin⟩
  exact ⟨rfl, m, hm, hin, hout⟩

/-- Witness for C7: two spaces, one path each; closing opening o1 leaves the
stored state untouched (and the derived map scales only the first space). -/
theorem updateAchForOpeningState_spec_witness :
    (∀ sp ∈ c7State.ventilationPaths, (lookupA c7State.achRates sp.1).isSome) ∧
      (c7State.ventilationPaths.map Prod.fst).Nodup ∧
      (updateAchMethod c7State [("o1", "closed")]).1 = c7State := by
  refine ⟨?_, by decide, ?_⟩
  · intro sp hsp
    rcases List.mem_cons.mp hsp with he | hsp2
    · subst he; decide
    · rcases List.mem_cons.mp hsp2 with he | hsp3
      · subst he; decide
      · exact absurd hsp3 (List.not_mem_nil _)
  · exact (updateAchForOpeningState_spec c7State [("o1", "closed")]
      (by
        intro sp hsp
        rcases List.mem_cons.mp hsp with he | hsp2
        · subst he; decide
        · rcases List.mem_cons.mp hsp2 with he | hsp3
          · subst he; decide
          · exact absurd hsp3 (List.not_mem_nil _))
      (by decide)).1

/-! ## ACH range invariant (claim C1) -/

/-- The per-space rate is always clamped into [1, 10]. -/
theorem calculateSpaceAch_bounds (pw : ℚ → ℚ) (paths : List PathObj) :
    1 ≤ calculateSpaceAch pw paths ∧ calculateSpaceAch pw paths ≤ 10 := by
  unfold calculateSpaceAch clampAch achLowMin highAchRate
  split
  · norm_num
  · constructor
    · exact le_max_left _ _
    · exact max_le (by norm_num) (min_le_right _ _)

/-- One smoothing step preserves the range invariant: all stored values stay
in [0, 10], and every key of the protected id list keeps a value ≥ 1. -/
theorem smoothStep_inv (ids : List String) (m : List (String × ℚ)) (e : EdgeData)
    (h1 : ∀ k v, lookupA m k = some v → 0 ≤ v ∧ v ≤ 10)
    (h2 : ∀ k ∈ ids, ∃ v, lookupA m k = some v ∧ 1 ≤ v) :
    (∀ k v, lookupA (smoothStep m e) k = some v → 0 ≤ v ∧ v ≤ 10) ∧
      (∀ k ∈ ids, ∃ v, lookupA (smoothStep m e) k = some v ∧ 1 ≤ v) := by
  have main : ∀ n1 n2 : ℚ, 0 ≤ n1 → n1 ≤ 10 → 0 ≤ n2 → n2 ≤ 10 →
      (e.u ∈ ids → 1 ≤ n1) → (e.v ∈ ids → 1 ≤ n2) →
      (∀ k v, lookupA (setA (setA m e.u n1) e.v n2) k = some v → 0 ≤ v ∧ v ≤ 10) ∧
        (∀ k ∈ ids, ∃ v, lookupA (setA (setA m e.u n1) e.v n2) k = some v ∧ 1 ≤ v) := by
    intro n1 n2 hn1a hn1b hn2a hn2b hu1 hv1
    constructor
    · intro k v hk
      rw [lookupA_setA] at hk
      by_cases hkv : k = e.v
      · rw [if_pos hkv] at hk
        cases hk
        exact ⟨hn2a, hn2b⟩
      · rw [if_neg hkv, lookupA_setA] at hk
        by_cases hku : k = e.u
        · rw [if_pos hku] at hk
          cases hk
          exact ⟨hn1a, hn1b⟩
        · rw [if_neg hku] at hk
          exact h1 k v hk
    · intro k hk
      by_cases hkv : k = e.v
      · refine ⟨n2, ?_, hv1 (hkv ▸ hk)⟩
        rw [lookupA_setA, if_pos hkv]
      · by_cases hku : k = e.u
        · refine ⟨n1, ?_, hu1 (hku ▸ hk)⟩
          rw [lookupA_setA, if_neg hkv, lookupA_setA, if_pos hku]
        · rcases h2 k hk with ⟨v, hv, hvb⟩
          refine ⟨v, ?_, hvb⟩
          rw [lookupA_setA, if_neg hkv, lookupA_setA, if_neg hku, hv]
  unfold smoothStep
  by_cases hext : (e.u.startsWith "space_exterior" || e.v.startsWith "space_exterior") = true
  · simp only [hext, if_true]
    exact ⟨h1, h2⟩
  · simp only [hext, if_false, Bool.false_eq_true]
    have hb1 : 0 ≤ (lookupA m e.u).getD 0 ∧ (lookupA m e.u).getD 0 ≤ 10 := by
      cases hc : lookupA m e.u with
      | none => norm_num
      | some v => simpa using h1 e.u v hc
    have hb2 : 0 ≤ (lookupA m e.v).getD 0 ∧ (lookupA m e.v).getD 0 ≤ 10 := by
      cases hc : lookupA m e.v with
      | none => norm_num
      | some v => simpa using h1 e.v v hc
    have hid1 : e.u ∈ ids → 1 ≤ (lookupA m e.u).getD 0 := by
      intro hm
      rcases h2 e.u hm with ⟨v, hv, hvb⟩
      rw [hv]
      simpa using hvb
    have hid2 : e.v ∈ ids → 1 ≤ (lookupA m e.v).getD 0 := by
      intro hm
      rcases h2 e.v hm with ⟨v, hv, hvb⟩
      rw [hv]
      simpa using hvb
    set a1 := (lookupA m e.u).getD 0
    set a2 := (lookupA m e.v).getD 0
    by_cases hd : |a1 - a2| > 5
    · have habs : a1 - a2 > 5 ∨ a1 - a2 < -5 := by
        rcases lt_abs.mp hd with h | h
        · exact Or.inl h
        · exact Or.inr (by linarith)
      simp only [hd, if_true]
      by_cases hgt : a1 > a2
      · have hgap : a1 - a2 > 5 := by
          rcases habs with h | h
          · exact h
          · linarith
        simp only [hgt, if_true]
        refine main _ _ (by linarith [hb1.1, hb1.2, hb2.1, hb2.2])
          (by linarith [hb1.1, hb1.2, hb2.1, hb2.2])
          (by linarith [hb1.1, hb1.2, hb2.1, hb2.2])
          (by linarith [hb1.1, hb1.2, hb2.1, hb2.2])
          (fun hm => by have := hid1 hm; linarith [hb2.1])
          (fun hm => by have := hid2 hm; linarith [hb1.1])
      · have hgap : a2 - a1 > 5 := by
          rcases habs with h | h
          · exact absurd (by linarith : a2 < a1) (by simpa using hgt)
          · linarith
        simp only [hgt, if_false]
        refine main _ _ (by linarith [hb1.1, hb1.2, hb2.1, hb2.2])
          (by linarith [hb1.1, hb1.2, hb2.1, hb2.2])
          (by linarith [hb1.1, hb1.2, hb2.1, hb2.2])
          (by linarith [hb1.1, hb1.2, hb2.1, hb2.2])
          (fun hm => by have := hid1 hm; linarith [hb2.1])
          (fun hm => by have := hid2 hm; linarith [hb1.1])
    · simp only [hd, if_false]
      exact ⟨h1, h2⟩

/-- A fold of smoothing steps preserves the range invariant. -/
theorem smoothFold_inv (ids : List String) :
    ∀ (es : List EdgeData) (m : List (String × ℚ)),
      (∀ k v, lookupA m k = some v → 0 ≤ v ∧ v ≤ 10) →
      (∀ k ∈ ids, ∃ v, lookupA m k = some v ∧ 1 ≤ v) →
      (∀ k v, lookupA (es.foldl smoothStep m) k = some v → 0 ≤ v ∧ v ≤ 10) ∧
        (∀ k ∈ ids, ∃ v, lookupA (es.foldl smoothStep m) k = some v ∧ 1 ≤ v) := by
  intro es
  induction es with
  | nil => exact fun m h1 h2 => ⟨h1, h2⟩
  | cons e t ih =>
      intro m h1 h2
      rcases smoothStep_inv ids m e h1 h2 with ⟨h1b, h2b⟩
      rw [List.foldl_cons]
      exact ih (smoothStep m e) h1b h2b

/-- The smoothing pass preserves the range invariant. -/
theorem validateAchRates_inv (ids : List String) (g : Graph) (m : List (String × ℚ))
    (h1 : ∀ k v, lookupA m k = some v → 0 ≤ v ∧ v ≤ 10)
    (h2 : ∀ k ∈ ids, ∃ v, lookupA m k = some v ∧ 1 ≤ v) :
    (∀ k v, lookupA (validateAchRates g m) k = some v → 0 ≤ v ∧ v ≤ 10) ∧
      (∀ k ∈ ids, ∃ v, lookupA (validateAchRates g m) k = some v ∧ 1 ≤ v) :=
  smoothFold_inv ids g.edges m h1 h2

/-- The per-space accumulation phase of calculate_ach_rates keeps every
stored rate in [1, 10], never drops a key, and records a rate for every
processed space. -/
theorem calcAccum_inv (pw : ℚ → ℚ) (g : Graph) (exts : List String) :
    ∀ (sl : List AchSpaceIn) (st0 : CalcState),
      (∀ k v, lookupA st0.achRates k = some v → 1 ≤ v ∧ v ≤ 10) →
      (∀ k v, lookupA (sl.foldl
          (fun (st : CalcState) s =>
            let paths := findVentilationPaths g s.id exts
            { achRates := setA st.achRates s.id (calculateSpaceAch pw paths)
              ventilationPaths := setA st.ventilationPaths s.id paths }) st0).achRates k =
            some v → 1 ≤ v ∧ v ≤ 10) ∧
        (∀ k, (lookupA st0.achRates k).isSome →
          (lookupA (sl.foldl
            (fun (st : CalcState) s =>
              let paths := findVentilationPaths g s.id exts
              { achRates := setA st.achRates s.id (calculateSpaceAch pw paths)
                ventilationPaths := setA st.ventilationPaths s.id paths }) st0).achRates k).isSome) ∧
        (∀ s ∈ sl, (lookupA (sl.foldl
          (fun (st : CalcState) s =>
            let paths := findVentilationPaths g s.id exts
            { achRates := setA st.achRates s.id (calculateSpaceAch pw paths)
              ventilationPaths := setA st.ventilationPaths s.id paths }) st0).achRates s.id).isSome) := by
  intro sl
  induction sl with
  | nil =>
      intro st0 h0
      exact ⟨h0, fun k hk => hk, fun s hs => absurd hs (List.not_mem_nil s)⟩
  | cons s t ih =>
      intro st0 h0
      rw [List.foldl_cons]
      have h1 : ∀ k v,
          lookupA (setA st0.achRates s.id
            (calculateSpaceAch pw (findVentilationPaths g s.id exts))) k = some v →
            1 ≤ v ∧ v ≤ 10 := by
        intro k v hk
        rw [lookupA_setA] at hk
        by_cases hks : k = s.id
        · rw [if_pos hks] at hk
          cases hk
          exact calculateSpaceAch_bounds pw _
        · rw [if_neg hks] at hk
          exact h0 k v hk
      rcases ih ⟨setA st0.achRates s.id
            (calculateSpaceAch pw (findVentilationPaths g s.id exts)),
          setA st0.ventilationPaths s.id (findVentilationPaths g s.id exts)⟩ h1 with ⟨ha, hb, hc⟩
      refine ⟨ha, ?_, ?_⟩
      · intro k hk
        refine hb k ?_
        exact lookupA_setA_isSome _ _ _ _ hk
      · intro q hq
        rcases List.mem_cons.mp hq with he | hq2
        · subst he
          refine hb q.id ?_
          rw [lookupA_setA, if_pos rfl]
          rfl
        · exact hc q hq2

/-- C1: after calculate_ach_rates completes, including the adjacent-space
smoothing pass, the stored ACH value of every space in the input list lies
in the closed interval [ACH_low_min, ACH_high] = [1, 10] (defaults); this
holds for every graph, exterior list and float power pw. -/
theorem calculateAchRates_in_range (pw : ℚ → ℚ) (spaces : List AchSpaceIn)
    (g : Graph) (exts : List String) (sid : String)
    (h : sid ∈ spaces.map AchSpaceIn.id) :
    ∃ v, lookupA (calculateAchRates pw spaces g exts).achRates sid = some v ∧
      1 ≤ v ∧ v ≤ 10 := by
  unfold calculateAchRates
  rcases calcAccum_inv pw g exts spaces ⟨[], []⟩
      (fun k v hk => by simp [lookupA] at hk) with ⟨ha, _, hc⟩
  have hpres : ∀ k ∈ spaces.map AchSpaceIn.id, ∃ v,
      lookupA (spaces.foldl
        (fun (st : CalcState) s =>
          let paths := findVentilationPaths g s.id exts
          { achRates := setA st.achRates s.id (calculateSpaceAch pw paths)
            ventilationPaths := setA st.ventilationPaths s.id paths }) ⟨[], []⟩).achRates k =
        some v ∧ 1 ≤ v := by
    intro k hk
    rcases List.mem_map.mp hk with ⟨s, hs, hsk⟩
    rcases Option.isSome_iff_exists.mp (hsk ▸ hc s hs) with ⟨v, hv⟩
    exact ⟨v, hv, (ha k v hv).1⟩
  rcases validateAchRates_inv (spaces.map AchSpaceIn.id) g _
      (fun k v hk => ⟨by linarith [(ha k v hk).1], (ha k v hk).2⟩) hpres with ⟨hr1, hr2⟩
  rcases hr2 sid h with ⟨v, hv, hvb⟩
  exact ⟨v, hv, hvb, (hr1 sid v hv).2⟩

/-- Witness for C1 at a one-space input over the counterexample graph. -/
theorem calculateAchRates_in_range_witness :
    "s" ∈ ([⟨"s", some 10⟩] : List AchSpaceIn).map AchSpaceIn.id ∧
      ∃ v, lookupA (calculateAchRates (fun x => x) [⟨"s", some 10⟩] c3Graph
        [exteriorId]).achRates "s" = some v ∧ 1 ≤ v ∧ v ≤ 10 :=
  ⟨by decide,
   calculateAchRates_in_range (fun x => x) [⟨"s", some 10⟩] c3Graph [exteriorId] "s" (by decide)⟩

/-! ## Repair pass connects everything (claim C2) -/

/-- Adjacency only yields edge endpoints, hence graph nodes. -/
theorem adj_mem_nodes (g : Graph) (hwf : wfGraph g) (a b : String)
    (hb : b ∈ adjList g a) : b ∈ g.nodes := by
  unfold adjList at hb
  rcases List.mem_filterMap.mp hb with ⟨e, he, hfe⟩
  by_cases h1 : e.u = a
  · simp only [h1, if_true, Option.some.injEq] at hfe
    exact hfe ▸ (hwf e he).2
  · by_cases h2 : e.v = a
    · simp only [h1, if_false, h2, if_true, Option.some.injEq] at hfe
      exact hfe ▸ (hwf e he).1
    · simp [h1, h2] at hfe

/-- The node itself is in its reach set. -/
theorem mem_reachSetOf_self (g : Graph) (a : String) : a ∈ reachSetOf g a :=
  niter_subset_self (adjList g) (closureFuel g a) {a} (Finset.mem_singleton_self a)

/-- Soundness of the computed reach set. -/
theorem reachSetOf_sound (g : Graph) (a b : String) (h : b ∈ reachSetOf g a) :
    Reaches (adjList g) a b := by
  rcases niter_sound (adjList g) (closureFuel g a) {a} b h with ⟨x, hx, hr⟩
  rwa [Finset.mem_singleton.mp hx] at hr

/-- The reach set of a node stays among the graph nodes. -/
theorem reachSetOf_subset_nodes (g : Graph) (hwf : wfGraph g) (a : String)
    (ha : a ∈ g.nodes) : ∀ x ∈ reachSetOf g a, x ∈ g.nodes := by
  intro x hx
  have h := niter_subset_closed (adjList g) (closureFuel g a)
    (fun c b hb => List.mem_toFinset.mpr (adj_mem_nodes g hwf c b hb))
    (Finset.singleton_subset_iff.mpr (List.mem_toFinset.mpr ha))
  exact List.mem_toFinset.mp (h hx)

/-- Completeness of has_path for well-formed graphs. -/
theorem hasPathB_complete (g : Graph) (hwf : wfGraph g) {a b : String}
    (hr : Reaches (adjList g) a b) : hasPathB g a b = true := by
  unfold hasPathB reachSetOf closureFuel
  have hU : ∀ x : String, ∀ y ∈ adjList g x, y ∈ insert a g.nodes.toFinset :=
    fun x y hy =>
      Finset.mem_insert.mpr (Or.inr (List.mem_toFinset.mpr (adj_mem_nodes g hwf x y hy)))
  have hs : ({a} : Finset String) ⊆ insert a g.nodes.toFinset := by simp
  simpa using niter_complete (adjList g) hU hs (Finset.mem_singleton_self a) hr

/-- Reachability is monotone in the neighbour function. -/
theorem reaches_mono (nb1 nb2 : String → List String)
    (hmono : ∀ x y, y ∈ nb1 x → y ∈ nb2 x) {a b : String}
    (h : Reaches nb1 a b) : Reaches nb2 a b := by
  induction h with
  | refl => exact Relation.ReflTransGen.refl
  | tail _ hcb ih => exact Relation.ReflTransGen.tail ih (hmono _ _ hcb)

/-- Appending edges only enlarges adjacency. -/
theorem adjList_append (g : Graph) (l : List EdgeData) (a b : String)
    (hb : b ∈ adjList g a) : b ∈ adjList ⟨g.nodes, g.edges ++ l⟩ a := by
  unfold adjList at hb ⊢
  rw [List.filterMap_append]
  exact List.mem_append_left _ hb

/-- Every node of a component list is in the graph. -/
theorem mem_graphComponents (g : Graph) (n : String) (hn : n ∈ g.nodes) :
    reachSetOf g n ∈ graphComponents g :=
  List.mem_dedup.mpr (List.mem_map_of_mem (reachSetOf g) hn)

/-- A chosen largest space, once some, stays some through the scan. -/
theorem pickFold_isSome (props : List (String × SpaceIn)) :
    ∀ (l : List String) (acc : Option String × ℚ), acc.1.isSome →
      (l.foldl
        (fun acc n =>
          match lookupA props n with
          | some s => if (s.volume.getD 0) > acc.2 then (some n, s.volume.getD 0) else acc
          | none => acc) acc).1.isSome := by
  intro l
  induction l with
  | nil => exact fun acc h => h
  | cons y t ih =>
      intro acc h
      rw [List.foldl_cons]
      cases hy : lookupA props y with
      | none => simpa [hy] using ih acc h
      | some s =>
          by_cases hv : (s.volume.getD 0) > acc.2
          · simpa [hy, hv] using ih (some y, s.volume.getD 0) rfl
          · simpa [hy, hv] using ih acc h

/-- The scan only ever selects scanned nodes. -/
theorem pickFold_mem (props : List (String × SpaceIn)) :
    ∀ (l : List String) (acc : Option String × ℚ),
      (l.foldl
        (fun acc n =>
          match lookupA props n with
          | some s => if (s.volume.getD 0) > acc.2 then (some n, s.volume.getD 0) else acc
          | none => acc) acc).1 = acc.1 ∨
      ∃ m ∈ l, (l.foldl
        (fun acc n =>
          match lookupA props n with
          | some s => if (s.volume.getD 0) > acc.2 then (some n, s.volume.getD 0) else acc
          | none => acc) acc).1 = some m := by
  intro l
  induction l with
  | nil => exact fun acc => Or.inl rfl
  | cons y t ih =>
      intro acc
      rw [List.foldl_cons]
      cases hy : lookupA props y with
      | none =>
          simp only [hy]
          rcases ih acc with h | ⟨m, hm, he⟩
          · exact Or.inl h
          · exact Or.inr ⟨m, List.mem_cons_of_mem y hm, he⟩
      | some s =>
          by_cases hv : (s.volume.getD 0) > acc.2
          · simp only [hy, hv, if_true]
            rcases ih (some y, s.volume.getD 0) with h | ⟨m, hm, he⟩
            · exact Or.inr ⟨y, List.mem_cons_self y t, h⟩
            · exact Or.inr ⟨m, List.mem_cons_of_mem y hm, he⟩
          · simp only [hy, hv, if_false]
            rcases ih acc with h | ⟨m, hm, he⟩
            · exact Or.inl h
            · exact Or.inr ⟨m, List.mem_cons_of_mem y hm, he⟩

/-- With a positive-volume node among the scanned ones, something is chosen. -/
theorem pickFold_succeeds (props : List (String × SpaceIn)) :
    ∀ (l : List String) (acc : Option String × ℚ),
      (acc.1 = none → acc.2 = 0) →
      (∃ x ∈ l, ∃ s, lookupA props x = some s ∧ 0 < s.volume.getD 0) →
      (l.foldl
        (fun acc n =>
          match lookupA props n with
          | some s => if (s.volume.getD 0) > acc.2 then (some n, s.volume.getD 0) else acc
          | none => acc) acc).1.isSome := by
  intro l
  induction l with
  | nil => exact fun acc _ hx => absurd hx (by simp)
  | cons y t ih =>
      intro acc hnone ⟨x, hx, s, hs, hvs⟩
      rw [List.foldl_cons]
      cases hy : lookupA props y with
      | none =>
          simp only [hy]
          rcases List.mem_cons.mp hx with he | hx2
          · rw [he] at hs
            rw [hs] at hy
            cases hy
          · exact ih acc hnone ⟨x, hx2, s, hs, hvs⟩
      | some s2 =>
          by_cases hv : (s2.volume.getD 0) > acc.2
          · simp only [hy, hv, if_true]
            exact pickFold_isSome props t (some y, s2.volume.getD 0) rfl
          · simp only [hy, hv, if_false]
            cases hacc : acc.1 with
            | some m => exact pickFold_isSome props t acc (by rw [hacc]; rfl)
            | none =>
                have h0 : acc.2 = 0 := hnone hacc
                rcases List.mem_cons.mp hx with he | hx2
                · rw [he] at hs
                  rw [hs] at hy
                  cases hy
                  exact absurd hvs (by rw [h0] at hv; simpa using hv)
                · exact ih acc hnone ⟨x, hx2, s, hs, hvs⟩

/-- The repair scan picks a member of the scanned list whenever some node
with a positive stored volume is present. -/
theorem pickLargest_spec (props : List (String × SpaceIn)) (l : List String)
    (x : String) (hx : x ∈ l) (s : SpaceIn) (hs : lookupA props x = some s)
    (hvs : 0 < s.volume.getD 0) :
    ∃ m, (pickLargest props l).1 = some m ∧ m ∈ l := by
  have hsome := pickFold_succeeds props l (none, 0) (fun _ => rfl) ⟨x, hx, s, hs, hvs⟩
  rcases Option.isSome_iff_exists.mp hsome with ⟨m, hm⟩
  rcases pickFold_mem props l (none, 0) with h | ⟨m2, hm2, he⟩
  · rw [h] at hm
    cases hm
  · exact ⟨m2, he, hm2⟩

/-- The repair scan never invents a node. -/
theorem pickLargest_mem_of_some (props : List (String × SpaceIn)) (l : List String)
    (m : String) (hm : (pickLargest props l).1 = some m) : m ∈ l := by
  have hm2 : (l.foldl
      (fun acc n =>
        match lookupA props n with
        | some s => if (s.volume.getD 0) > acc.2 then (some n, s.volume.getD 0) else acc
        | none => acc) ((none : Option String), (0 : ℚ))).1 = some m := hm
  rcases pickFold_mem props l (none, 0) with h | ⟨m3, hm3, he⟩
  · rw [h] at hm2
    cases hm2
  · rw [he] at hm2
    have : m3 = m := Option.some.inj hm2
    exact this ▸ hm3

/-- The repair fold only appends edges and keeps the node list. -/
theorem repairFold_extends (props : List (String × SpaceIn)) (ec : Finset String) :
    ∀ (cs : List (Finset String)) (g0 : Graph),
      ∃ l, (cs.foldl
        (fun g2 c =>
          if c = ec then g2
          else
            match (pickLargest props (c.sort (fun a b => a ≤ b))).1 with
            | some m => { g2 with edges := g2.edges ++ [repairEdge m] }
            | none => g2) g0).nodes = g0.nodes ∧
      (cs.foldl
        (fun g2 c =>
          if c = ec then g2
          else
            match (pickLargest props (c.sort (fun a b => a ≤ b))).1 with
            | some m => { g2 with edges := g2.edges ++ [repairEdge m] }
            | none => g2) g0).edges = g0.edges ++ l := by
  intro cs
  induction cs with
  | nil => exact fun g0 => ⟨[], rfl, (List.append_nil g0.edges).symm⟩
  | cons c t ih =>
      intro g0
      rw [List.foldl_cons]
      by_cases hc : c = ec
      · simpa [hc] using ih g0
      · cases hm : (pickLargest props (c.sort (fun a b => a ≤ b))).1 with
        | none => simpa [hc, hm] using ih g0
        | some m =>
            rcases ih { g0 with edges := g0.edges ++ [repairEdge m] } with ⟨l, hn, he⟩
            refine ⟨repairEdge m :: l, ?_, ?_⟩
            · simpa [hc, hm] using hn
            · simp only [if_neg hc, hm]
              rw [he]
              simp
  
/-- A repair edge created for a processed component survives to the end of
the fold. -/
theorem repairFold_mem (props : List (String × SpaceIn)) (ec : Finset String) :
    ∀ (cs : List (Finset String)) (g0 : Graph) (c : Finset String),
      c ∈ cs → c ≠ ec →
      ∀ m, (pickLargest props (c.sort (fun a b => a ≤ b))).1 = some m →
      repairEdge m ∈ (cs.foldl
        (fun g2 c =>
          if c = ec then g2
          else
            match (pickLargest props (c.sort (fun a b => a ≤ b))).1 with
            | some m => { g2 with edges := g2.edges ++ [repairEdge m] }
            | none => g2) g0).edges := by
  intro cs
  induction cs with
  | nil => intro g0 c hc; exact absurd hc (List.not_mem_nil c)
  | cons c0 t ih =>
      intro g0 c hc hcne m hm
      rw [List.foldl_cons]
      rcases List.mem_cons.mp hc with he | hc2
      · subst he
        rw [if_neg hcne, hm]
        rcases repairFold_extends props ec t { g0 with edges := g0.edges ++ [repairEdge m] }
          with ⟨l, _, hedges⟩
        rw [hedges]
        exact List.mem_append_left _ (List.mem_append_right _ (List.mem_singleton.mpr rfl))
      · exact ih _ c hc2 hcne m hm

/-- After the repair pass, every non-exterior node reaches the exterior,
provided every non-exterior node has a positive stored volume. -/
theorem validateTopology_reaches (props : List (String × SpaceIn)) (g : Graph)
    (hwf : wfGraph g) (hext : exteriorId ∈ g.nodes)
    (hvol : ∀ n ∈ g.nodes, n ≠ exteriorId →
      ∃ s, lookupA props n = some s ∧ 0 < s.volume.getD 0)
    (n : String) (hn : n ∈ g.nodes) (hne : n ≠ exteriorId) :
    Reaches (adjList (validateTopology props g)) n exteriorId := by
  have hecmem : reachSetOf g exteriorId ∈ graphComponents g :=
    mem_graphComponents g exteriorId hext
  have hfind : ((graphComponents g).find? (fun c => exteriorId ∈ c)).isSome := by
    rw [List.find?_isSome]
    exact ⟨reachSetOf g exteriorId, hecmem, by simpa using mem_reachSetOf_self g exteriorId⟩
  rcases Option.isSome_iff_exists.mp hfind with ⟨ec, hec⟩
  have hecext : exteriorId ∈ ec := by
    have := List.find?_some hec
    simpa using this
  unfold validateTopology
  simp only [hec]
  rcases repairFold_extends props ec (graphComponents g) g with ⟨l, hnodes, hedges⟩
  have hmono : ∀ x y, y ∈ adjList g x →
      y ∈ adjList ((graphComponents g).foldl
        (fun g2 c =>
          if c = ec then g2
          else
            match (pickLargest props (c.sort (fun a b => a ≤ b))).1 with
            | some m => { g2 with edges := g2.edges ++ [repairEdge m] }
            | none => g2) g) x := by
    intro x y hy
    unfold adjList at hy ⊢
    rw [hedges, List.filterMap_append]
    exact List.mem_append_left _ hy
  by_cases hreach : Reaches (adjList g) n exteriorId
  · exact reaches_mono _ _ hmono hreach
  · have hcmem : reachSetOf g n ∈ graphComponents g := mem_graphComponents g n hn
    have hcne : reachSetOf g n ≠ ec := by
      intro he
      exact hreach (reachSetOf_sound g n exteriorId (he ▸ hecext))
    have hnc : n ∈ reachSetOf g n := mem_reachSetOf_self g n
    have hsort : n ∈ (reachSetOf g n).sort (fun a b => a ≤ b) :=
      (Finset.mem_sort (fun a b => a ≤ b)).mpr hnc
    rcases hvol n hn hne with ⟨s, hls, hvs⟩
    rcases pickLargest_spec props ((reachSetOf g n).sort (fun a b => a ≤ b)) n hsort s hls hvs
      with ⟨m, hm, hmem⟩
    have hmc : m ∈ reachSetOf g n := (Finset.mem_sort (fun a b => a ≤ b)).mp hmem
    have hrep := repairFold_mem props ec (graphComponents g) g (reachSetOf g n) hcmem hcne m hm
    have hrm : Reaches (adjList g) n m := reachSetOf_sound g n m hmc
    have hadj : exteriorId ∈ adjList ((graphComponents g).foldl
        (fun g2 c =>
          if c = ec then g2
          else
            match (pickLargest props (c.sort (fun a b => a ≤ b))).1 with
            | some m => { g2 with edges := g2.edges ++ [repairEdge m] }
            | none => g2) g) m := by
      unfold adjList
      refine List.mem_filterMap.mpr ⟨repairEdge m, hrep, ?_⟩
      simp [repairEdge]
    exact Relation.ReflTransGen.tail (reaches_mono _ _ hmono hrm) hadj

/-- The repair pass keeps the graph well-formed and its node list. -/
theorem validateTopology_wf (props : List (String × SpaceIn)) (g : Graph)
    (hwf : wfGraph g) (hext : exteriorId ∈ g.nodes) :
    wfGraph (validateTopology props g) ∧ (validateTopology props g).nodes = g.nodes := by
  unfold validateTopology
  cases hec : (graphComponents g).find? (fun c => exteriorId ∈ c) with
  | none =>
      simp only [hec]
      exact ⟨hwf, trivial⟩
  | some ec =>
      have hcomp : ∀ c ∈ graphComponents g, ∀ x ∈ c, x ∈ g.nodes := by
        intro c hc x hx
        rcases List.mem_map.mp (List.mem_dedup.mp hc) with ⟨p, hp, hcp⟩
        exact reachSetOf_subset_nodes g hwf p hp x (hcp ▸ hx)
      have main : ∀ (cs : List (Finset String)) (g0 : Graph),
          (∀ c ∈ cs, ∀ x ∈ c, x ∈ g.nodes) → wfGraph g0 → g0.nodes = g.nodes →
          wfGraph (cs.foldl
            (fun g2 c =>
              if c = ec then g2
              else
                match (pickLargest props (c.sort (fun a b => a ≤ b))).1 with
                | some m => { g2 with edges := g2.edges ++ [repairEdge m] }
                | none => g2) g0) ∧
          (cs.foldl
            (fun g2 c =>
              if c = ec then g2
              else
                match (pickLargest props (c.sort (fun a b => a ≤ b))).1 with
                | some m => { g2 with edges := g2.edges ++ [repairEdge m] }
                | none => g2) g0).nodes = g.nodes := by
        intro cs
        induction cs with
        | nil => exact fun g0 _ hwf0 hn0 => ⟨hwf0, hn0⟩
        | cons c t ih =>
            intro g0 hcs hwf0 hn0
            rw [List.foldl_cons]
            by_cases hc : c = ec
            · simp only [if_pos hc]
              exact ih g0 (fun c2 hc2 => hcs c2 (List.mem_cons_of_mem c hc2)) hwf0 hn0
            · cases hm : (pickLargest props (c.sort (fun a b => a ≤ b))).1 with
              | none =>
                  simp only [if_neg hc, hm]
                  exact ih g0 (fun c2 hc2 => hcs c2 (List.mem_cons_of_mem c hc2)) hwf0 hn0
              | some m =>
                  simp only [if_neg hc, hm]
                  refine ih { g0 with edges := g0.edges ++ [repairEdge m] }
                    (fun c2 hc2 => hcs c2 (List.mem_cons_of_mem c hc2)) ?_ hn0
                  intro e he
                  rcases List.mem_append.mp he with he2 | he2
                  · exact hwf0 e he2
                  · have : e = repairEdge m := List.mem_singleton.mp he2
                    subst this
                    have hmens : m ∈ c := (Finset.mem_sort (fun a b => a ≤ b)).mp
                      (pickLargest_mem_of_some props _ m hm)
                    refine ⟨?_, ?_⟩
                    · show m ∈ g0.nodes
                      rw [hn0]
                      exact hcs c (List.mem_cons_self c t) m hmens
                    · show exteriorId ∈ g0.nodes
                      rw [hn0]
                      exact hext
      simp only [hec]
      exact main (graphComponents g) g hcomp hwf rfl

/-- Membership after add_node. -/
theorem mem_addNodeIfAbsent (ns : List String) (i x : String) :
    x ∈ addNodeIfAbsent ns i ↔ x ∈ ns ∨ x = i := by
  unfold addNodeIfAbsent
  by_cases h : i ∈ ns
  · simp only [if_pos h]
    constructor
    · exact Or.inl
    · rintro (hx | hx)
      · exact hx
      · exact hx ▸ h
  · simp [if_neg h]

/-- Membership in the node accumulation fold. -/
theorem mem_nodesFold (sl : List SpaceIn) :
    ∀ (ns : List String) (x : String),
      x ∈ sl.foldl (fun ns s => addNodeIfAbsent ns s.id) ns ↔
        x ∈ ns ∨ ∃ s ∈ sl, s.id = x := by
  induction sl with
  | nil => simp
  | cons s t ih =>
      intro ns x
      rw [List.foldl_cons, ih (addNodeIfAbsent ns s.id) x, mem_addNodeIfAbsent]
      constructor
      · rintro ((hx | hx) | ⟨s2, hs2, he⟩)
        · exact Or.inl hx
        · exact Or.inr ⟨s, List.mem_cons_self s t, hx.symm⟩
        · exact Or.inr ⟨s2, List.mem_cons_of_mem s hs2, he⟩
      · rintro (hx | ⟨s2, hs2, he⟩)
        · exact Or.inl (Or.inl hx)
        · rcases List.mem_cons.mp hs2 with he2 | hs3
          · exact Or.inl (Or.inr (he2 ▸ he).symm)
          · exact Or.inr ⟨s2, hs3, he⟩

/-- The node list of build_topology. -/
theorem mem_topoNodes (spaces : List SpaceIn) (n : String) :
    n ∈ topoNodes spaces ↔ n = exteriorId ∨ ∃ s ∈ spaces, s.id = n := by
  unfold topoNodes
  rw [mem_addNodeIfAbsent, mem_nodesFold]
  simp [or_comm]

/-- The space_properties dict: every stored binding comes from the input
list under its own id, every input id is present, and bindings persist. -/
theorem spacePropsFold (sl : List SpaceIn) :
    ∀ (m : List (String × SpaceIn)),
      (∀ k s, lookupA (sl.foldl (fun m s => setA m s.id s) m) k = some s →
        lookupA m k = some s ∨ (s ∈ sl ∧ s.id = k)) ∧
      (∀ k, (lookupA m k).isSome →
        (lookupA (sl.foldl (fun m s => setA m s.id s) m) k).isSome) ∧
      (∀ s ∈ sl, (lookupA (sl.foldl (fun m s => setA m s.id s) m) s.id).isSome) := by
  induction sl with
  | nil =>
      exact fun m => ⟨fun k s h => Or.inl h, fun k h => h,
        fun s hs => absurd hs (List.not_mem_nil s)⟩
  | cons s0 t ih =>
      intro m
      rw [List.foldl_cons]
      rcases ih (setA m s0.id s0) with ⟨h1, h2, h3⟩
      refine ⟨?_, ?_, ?_⟩
      · intro k s hk
        rcases h1 k s hk with hk2 | ⟨hs, hsk⟩
        · rw [lookupA_setA] at hk2
          by_cases hks : k = s0.id
          · rw [if_pos hks] at hk2
            cases hk2
            exact Or.inr ⟨List.mem_cons_self s0 t, hks.symm⟩
          · rw [if_neg hks] at hk2
            exact Or.inl hk2
        · exact Or.inr ⟨List.mem_cons_of_mem s0 hs, hsk⟩
      · intro k hk
        exact h2 k (lookupA_setA_isSome m s0.id k s0 hk)
      · intro s hs
        rcases List.mem_cons.mp hs with he | hs2
        · subst he
          refine h2 s.id ?_
          rw [lookupA_setA, if_pos rfl]
          rfl
        · exact h3 s hs2

/-- replaceEdge preserves any predicate preserved by the update. -/
theorem replaceEdge_pres (P : EdgeData → Prop) (a b : String) (f : EdgeData → EdgeData)
    (hf : ∀ e, P e → P (f e)) :
    ∀ (es : List EdgeData), (∀ e ∈ es, P e) → ∀ e ∈ replaceEdge a b f es, P e := by
  intro es
  induction es with
  | nil => intro _ e he; exact absurd he (List.not_mem_nil e)
  | cons e0 t ih =>
      intro hes e he
      unfold replaceEdge at he
      by_cases hm : edgeMatches e0 a b
      · rw [if_pos hm] at he
        rcases List.mem_cons.mp he with he2 | he2
        · exact he2 ▸ hf e0 (hes e0 (List.mem_cons_self e0 t))
        · exact hes e (List.mem_cons_of_mem e0 he2)
      · rw [if_neg hm] at he
        rcases List.mem_cons.mp he with he2 | he2
        · exact he2 ▸ hes e0 (List.mem_cons_self e0 t)
        · exact ih (fun e2 he3 => hes e2 (List.mem_cons_of_mem e0 he3)) e he2

/-- One opening insertion keeps all edge endpoints among the nodes. -/
theorem insertOpening_wf (ns : List String) (es : List EdgeData) (o : OpeningIn)
    (hes : ∀ e ∈ es, e.u ∈ ns ∧ e.v ∈ ns) :
    ∀ e ∈ insertOpening ns es o, e.u ∈ ns ∧ e.v ∈ ns := by
  unfold insertOpening
  cases hcs : (if o.connects.length = 1 then o.connects ++ [exteriorId] else o.connects) with
  | nil => exact hes
  | cons a t =>
      cases t with
      | nil => exact hes
      | cons b t2 =>
          cases t2 with
          | nil =>
              by_cases hab : a ∈ ns ∧ b ∈ ns
              · simp only [if_pos hab]
                by_cases hedge : hasEdgeB ⟨ns, es⟩ a b
                · simp only [hedge, if_true]
                  exact replaceEdge_pres _ a b _
                    (fun e he => by simpa [updEdgeData] using he) es hes
                · simp only [hedge, Bool.false_eq_true, if_false]
                  intro e he
                  rcases List.mem_append.mp he with he2 | he2
                  · exact hes e he2
                  · have : e = ⟨a, b, [o.id], 1, openingWeight o, [o.type], false⟩ :=
                      List.mem_singleton.mp he2
                    subst this
                    exact hab
              · simp only [if_neg hab]
                exact hes
          | cons c t3 => exact hes

/-- The raw topology graph is well-formed. -/
theorem buildGraphRaw_wf (spaces : List SpaceIn) (openings : List OpeningIn) :
    wfGraph (buildGraphRaw spaces openings) := by
  unfold buildGraphRaw wfGraph
  have main : ∀ (ops : List OpeningIn) (es : List EdgeData),
      (∀ e ∈ es, e.u ∈ topoNodes spaces ∧ e.v ∈ topoNodes spaces) →
      ∀ e ∈ ops.foldl (insertOpening (topoNodes spaces)) es,
        e.u ∈ topoNodes spaces ∧ e.v ∈ topoNodes spaces := by
    intro ops
    induction ops with
    | nil => exact fun es hes => hes
    | cons o t ih =>
        intro es hes
        rw [List.foldl_cons]
        exact ih _ (insertOpening_wf _ es o hes)
  exact main openings [] (fun e he => absurd he (List.not_mem_nil e))

/-- C2: after build_topology, every input list of spaces with positive
volumes yields an empty isolated-space report: the repair pass joins the
largest-volume space of every stranded component to the exterior, so every
non-exterior node has a path to the exterior node. -/
theorem buildTopology_isolated_empty (spaces : List SpaceIn) (openings : List OpeningIn)
    (hvol : ∀ s ∈ spaces, 0 < s.volume.getD 0) :
    (buildTopology spaces openings).2 = [] := by
  unfold buildTopology
  have hwfraw : wfGraph (buildGraphRaw spaces openings) := buildGraphRaw_wf spaces openings
  have hext : exteriorId ∈ (buildGraphRaw spaces openings).nodes :=
    (mem_topoNodes spaces exteriorId).mpr (Or.inl rfl)
  have hvol2 : ∀ n ∈ (buildGraphRaw spaces openings).nodes, n ≠ exteriorId →
      ∃ s, lookupA (spacePropsOf spaces) n = some s ∧ 0 < s.volume.getD 0 := by
    intro n hn hne
    rcases (mem_topoNodes spaces n).mp hn with he | ⟨s, hs, hsid⟩
    · exact absurd he hne
    rcases spacePropsFold spaces [] with ⟨h1, _, h3⟩
    rcases Option.isSome_iff_exists.mp (hsid ▸ h3 s hs) with ⟨s2, hs2⟩
    rcases h1 n s2 hs2 with hk | ⟨hs2mem, _⟩
    · simp [lookupA] at hk
    · exact ⟨s2, hs2, hvol s2 hs2mem⟩
  rcases validateTopology_wf (spacePropsOf spaces) _ hwfraw hext with ⟨hwf2, hn2⟩
  unfold findIsolatedSpaces
  rw [List.filter_eq_nil_iff]
  intro n hn
  by_cases hne : n = exteriorId
  · simp [hne]
  · have hr := validateTopology_reaches (spacePropsOf spaces) _ hwfraw hext hvol2 n
      (hn2 ▸ hn) hne
    have hp := hasPathB_complete _ hwf2 hr
    simp [hp]

/-- Witness for C2: two rooms with no opening at all; both get repair edges
and the isolated report is empty. -/
theorem buildTopology_isolated_empty_witness :
    (∀ s ∈ ([⟨"r1", some 30⟩, ⟨"r2", some 20⟩] : List SpaceIn), 0 < s.volume.getD 0) ∧
      (buildTopology [⟨"r1", some 30⟩, ⟨"r2", some 20⟩] []).2 = [] := by
  have hv : ∀ s ∈ ([⟨"r1", some 30⟩, ⟨"r2", some 20⟩] : List SpaceIn),
      0 < s.volume.getD 0 := by
    intro s hs
    rcases List.mem_cons.mp hs with he | hs2
    · subst he; norm_num
    · rcases List.mem_cons.mp hs2 with he | hs3
      · subst he; norm_num
      · exact absurd hs3 (List.not_mem_nil s)
  exact ⟨hv, buildTopology_isolated_empty [⟨"r1", some 30⟩, ⟨"r2", some 20⟩] [] hv⟩

/-! ## Shape of the retained ventilation paths (claim C3, amended) -/

/-- Invariant of the simple-path enumerator: every emitted path extends the
visited prefix, ends at the target, is duplicate-free, follows the
adjacency, and adds at most fuel + 1 nodes. -/
theorem spVisit_props (adj : String → List String) (target : String) :
    ∀ (fuel : ℕ) (children visited : List String) (lv : String),
      visited.getLast? = some lv → visited.Nodup →
      List.Chain' (fun a b => b ∈ adj a) visited →
      (∀ c ∈ children, c ∈ adj lv) →
      ∀ p ∈ spVisit adj target fuel visited children,
        (∃ s, s ≠ [] ∧ p = visited ++ s) ∧ p.getLast? = some target ∧
          p.Nodup ∧ List.Chain' (fun a b => b ∈ adj a) p ∧
          p.length ≤ visited.length + fuel + 1 := by
  intro fuel
  induction fuel with
  | zero =>
      intro children visited lv hlast hnd hch hcs p hp
      cases children with
      | nil => simp [spVisit] at hp
      | cons c rest =>
          simp only [spVisit] at hp
          by_cases hcond : target ∈ c :: rest ∧ target ∉ visited
          · rw [if_pos hcond] at hp
            have hpe : p = visited ++ [target] := List.mem_singleton.mp hp
            subst hpe
            refine ⟨⟨[target], by simp, rfl⟩, ?_, ?_, ?_, ?_⟩
            · rw [List.getLast?_concat]
            · rw [List.nodup_append]
              exact ⟨hnd, List.nodup_singleton target,
                fun x hx hx2 => hcond.2 ((List.mem_singleton.mp hx2) ▸ hx)⟩
            · refine List.Chain'.append hch (List.chain'_singleton target) ?_
              intro x hx y hy
              rw [hlast] at hx
              cases hx
              rw [List.head?_cons] at hy
              cases hy
              exact hcs target hcond.1
            · simp
          · rw [if_neg hcond] at hp
            simp at hp
  | succ fuel ihf =>
      intro children
      induction children with
      | nil =>
          intro visited lv _ _ _ _ p hp
          simp [spVisit, spLevel] at hp
      | cons c rest ihc =>
          intro visited lv hlast hnd hch hcs p hp
          have hrest : ∀ p2 ∈ spLevel (spVisit adj target fuel) adj target visited rest,
              (∃ s, s ≠ [] ∧ p2 = visited ++ s) ∧ p2.getLast? = some target ∧
                p2.Nodup ∧ List.Chain' (fun a b => b ∈ adj a) p2 ∧
                p2.length ≤ visited.length + (fuel + 1) + 1 := by
            intro p2 hp2
            exact ihc visited lv hlast hnd hch
              (fun x hx => hcs x (List.mem_cons_of_mem c hx)) p2 (by rw [spVisit]; exact hp2)
          rw [spVisit] at hp
          unfold spLevel at hp
          by_cases hcv : c ∈ visited
          · rw [if_pos hcv] at hp
            exact hrest p hp
          · rw [if_neg hcv] at hp
            by_cases hct : c = target
            · rw [if_pos hct] at hp
              rcases List.mem_cons.mp hp with he | hp2
              · subst he
                refine ⟨⟨[c], by simp, rfl⟩, ?_, ?_, ?_, ?_⟩
                · rw [List.getLast?_concat, hct]
                · rw [List.nodup_append]
                  exact ⟨hnd, List.nodup_singleton c,
                    fun x hx hx2 => hcv ((List.mem_singleton.mp hx2) ▸ hx)⟩
                · refine List.Chain'.append hch (List.chain'_singleton c) ?_
                  intro x hx y hy
                  rw [hlast] at hx
                  cases hx
                  rw [List.head?_cons] at hy
                  cases hy
                  exact hcs c (List.mem_cons_self c rest)
                · simp
              · exact hrest p hp2
            · rw [if_neg hct] at hp
              rcases List.mem_append.mp hp with hp2 | hp2
              · have hlast2 : (visited ++ [c]).getLast? = some c := by
                  rw [List.getLast?_concat]
                have hnd2 : (visited ++ [c]).Nodup := by
                  rw [List.nodup_append]
                  exact ⟨hnd, List.nodup_singleton c,
                    fun x hx hx2 => hcv ((List.mem_singleton.mp hx2) ▸ hx)⟩
                have hch2 : List.Chain' (fun a b => b ∈ adj a) (visited ++ [c]) := by
                  refine List.Chain'.append hch (List.chain'_singleton c) ?_
                  intro x hx y hy
                  rw [hlast] at hx
                  cases hx
                  rw [List.head?_cons] at hy
                  cases hy
                  exact hcs c (List.mem_cons_self c rest)
                rcases ihf (adj c) (visited ++ [c]) c hlast2 hnd2 hch2
                  (fun x hx => hx) p hp2 with ⟨⟨s, hs, hps⟩, hg, hn, hc2, hl⟩
                refine ⟨⟨c :: s, by simp, ?_⟩, hg, hn, hc2, ?_⟩
                · rw [hps, List.append_assoc]
                  rfl
                · rw [List.length_append] at hl
                  simp only [List.length_singleton] at hl
                  omega
              · exact hrest p hp2

/-- C3 (amended): with the single exterior node the pipeline uses, the
ventilation-path list holds at most five paths; every retained path is a
simple adjacency path from the space to the exterior of at most six hops
whose stored weight is the summed edge weight; the list is sorted ascending
by weight; and it is exactly (up to the sort) the first five enumerated
simple paths — not necessarily the five smallest-weight ones. -/
theorem findVentilationPaths_spec (g : Graph) (sid e : String) :
    (findVentilationPaths g sid [e]).length ≤ 5 ∧
      List.Sorted (fun p q : PathObj => p.weight ≤ q.weight) (findVentilationPaths g sid [e]) ∧
      (findVentilationPaths g sid [e]).Perm
        (if hasPathB g sid e then ((allSimplePathsTo g sid e 6).take 5).map (mkPathObj g e)
         else []) ∧
      ∀ p ∈ findVentilationPaths g sid [e],
        p.route.head? = some sid ∧ p.route.getLast? = some e ∧ p.route.Nodup ∧
          List.Chain' (fun a b => b ∈ adjList g a) p.route ∧ p.route.length ≤ 7 ∧
          p.weight = ((routePairs p.route).map (fun ab => edgeWeightOf g ab.1 ab.2)).sum := by
  letI : IsTotal PathObj (fun p q : PathObj => p.weight ≤ q.weight) :=
    ⟨fun a b => le_total a.weight b.weight⟩
  letI : IsTrans PathObj (fun p q : PathObj => p.weight ≤ q.weight) :=
    ⟨fun a b c h1 h2 => le_trans h1 h2⟩
  have hraw : findVentilationPaths g sid [e] =
      List.insertionSort (fun p q => p.weight ≤ q.weight)
        (if hasPathB g sid e then ((allSimplePathsTo g sid e 6).take 5).map (mkPathObj g e)
         else []) := by
    unfold findVentilationPaths
    simp
  have hperm := List.perm_insertionSort (fun p q : PathObj => p.weight ≤ q.weight)
    (if hasPathB g sid e then ((allSimplePathsTo g sid e 6).take 5).map (mkPathObj g e)
     else [])
  refine ⟨?_, ?_, ?_, ?_⟩
  · rw [hraw, hperm.length_eq]
    by_cases hp : hasPathB g sid e
    · simp only [hp, if_true, List.length_map]
      exact le_trans (List.length_take_le 5 _) (le_refl 5)
    · simp [hp]
  · rw [hraw]
    exact List.sorted_insertionSort (fun p q : PathObj => p.weight ≤ q.weight) _
  · rw [hraw]
    exact hperm
  · intro p hp
    rw [hraw] at hp
    have hp2 := hperm.mem_iff.mp hp
    by_cases hpath : hasPathB g sid e
    · rw [if_pos hpath] at hp2
      rcases List.mem_map.mp hp2 with ⟨r, hr, hpr⟩
      have hr2 : r ∈ allSimplePathsTo g sid e 6 := List.mem_of_mem_take hr
      unfold allSimplePathsTo at hr2
      rcases spVisit_props (adjList g) e 5 (adjList g sid) [sid] sid (by simp)
          (List.nodup_singleton sid) (List.chain'_singleton sid) (fun c hc => hc) r hr2
        with ⟨⟨s, hs, hrs⟩, hg2, hn2, hc2, hl2⟩
      have hroute : p.route = r := by rw [← hpr]; rfl
      have hweight : p.weight =
          ((routePairs p.route).map (fun ab => edgeWeightOf g ab.1 ab.2)).sum := by
        rw [hroute, ← hpr]; rfl
      refine ⟨?_, ?_, ?_, ?_, ?_, hweight⟩
      · rw [hroute, hrs, List.singleton_append, List.head?_cons]
      · rw [hroute]
        exact hg2
      · rw [hroute]
        exact hn2
      · rw [hroute]
        exact hc2
      · rw [hroute]
        simpa using hl2
    · rw [if_neg hpath] at hp2
      exact absurd hp2 (List.not_mem_nil p)

set_option maxHeartbeats 2000000 in
/-- Witness for C3 (amended) at the concrete counterexample graph: the path
through a and b1 is retained and has the stated shape. -/
theorem findVentilationPaths_spec_witness :
    mkPathObj c3Graph exteriorId ["s", "a", "b1", exteriorId] ∈
        findVentilationPaths c3Graph "s" [exteriorId] ∧
      ((mkPathObj c3Graph exteriorId ["s", "a", "b1", exteriorId]).route.head? = some "s" ∧
        (mkPathObj c3Graph exteriorId ["s", "a", "b1", exteriorId]).route.getLast? =
          some exteriorId ∧
        (mkPathObj c3Graph exteriorId ["s", "a", "b1", exteriorId]).route.Nodup ∧
        List.Chain' (fun a b => b ∈ adjList c3Graph a)
          (mkPathObj c3Graph exteriorId ["s", "a", "b1", exteriorId]).route ∧
        (mkPathObj c3Graph exteriorId ["s", "a", "b1", exteriorId]).route.length ≤ 7 ∧
        (mkPathObj c3Graph exteriorId ["s", "a", "b1", exteriorId]).weight =
          ((routePairs (mkPathObj c3Graph exteriorId ["s", "a", "b1", exteriorId]).route).map
            (fun ab => edgeWeightOf c3Graph ab.1 ab.2)).sum) := by
  have hmem : mkPathObj c3Graph exteriorId ["s", "a", "b1", exteriorId] ∈
      findVentilationPaths c3Graph "s" [exteriorId] := by
    norm_num +decide [c3Graph, buildTopology, buildGraphRaw, c3Spaces, c3Openings, topoNodes,
      addNodeIfAbsent, insertOpening, openingWeight, hasEdgeB, findEdge, edgeMatches, replaceEdge,
      updEdgeData, exteriorId, validateTopology, graphComponents, reachSetOf, closureFuel, niter,
      nstep, adjList, spacePropsOf, setA, lookupA, pickLargest, repairEdge, findIsolatedSpaces,
      hasPathB, findVentilationPaths, allSimplePathsTo, spVisit, spLevel, mkPathObj, routePairs,
      edgeOpeningInfos, edgeOpeningsOf, edgeTypesOf, edgeWeightOf, openingTypeOf, estArea,
      List.insertionSort, List.orderedInsert, pathDecayFactor]
  exact ⟨hmem, (findVentilationPaths_spec c3Graph "s" exteriorId).2.2.2 _ hmem⟩

/-! ## Contribution formula of retained paths (claim C4, amended) -/

/-- Sum of a constant-valued map. -/
theorem sum_map_const {α : Type} (l : List α) (c : ℚ) :
    (l.map (fun _ => c)).sum = (l.length : ℚ) * c := by
  induction l with
  | nil => simp
  | cons x t ih =>
      simp only [List.map_cons, List.sum_cons, ih, List.length_cons]
      push_cast
      ring

/-- The estimated areas collected along the pairs of a route sum to the
per-edge counts times per-edge estimates. -/
theorem estArea_flatMap_sum (g : Graph) :
    ∀ pairs : List (String × String),
      (((pairs.flatMap (fun ab => edgeOpeningInfos g ab.1 ab.2)).map
          OpeningInfo.estimated_area).sum) =
        (pairs.map
          (fun ab => ((edgeOpeningsOf g ab.1 ab.2).length : ℚ) *
            estArea (edgeWeightOf g ab.1 ab.2))).sum := by
  intro pairs
  induction pairs with
  | nil => simp
  | cons ab t ih =>
      simp only [List.flatMap_cons, List.map_append, List.sum_append, ih, List.map_cons,
        List.sum_cons]
      congr 1
      unfold edgeOpeningInfos
      rw [List.map_map]
      have : (OpeningInfo.estimated_area ∘ fun oid =>
          (⟨oid, openingTypeOf (edgeTypesOf g ab.1 ab.2),
            estArea (edgeWeightOf g ab.1 ab.2)⟩ : OpeningInfo)) =
          fun _ => estArea (edgeWeightOf g ab.1 ab.2) := rfl
      rw [this, sum_map_const]

/-- C4 (amended): every retained path contributes
base(L) · pw(Σ estimated areas) · path_decay^(L−1), where the estimated
area of an opening is the reciprocal of its edge's composite weight (1 when
the weight is not positive) — not the true opening area. -/
theorem pathContribution_formula (pw : ℚ → ℚ) (g : Graph) (sid : String)
    (exts : List String) :
    ∀ p ∈ findVentilationPaths g sid exts,
      p.length = p.route.length - 1 ∧
        p.decay_factor = pathDecayFactor ^ (p.route.length - 2) ∧
        p.total_opening_area = routeEstAreaSum g p.route ∧
        pathContribution pw p =
          baseAchForLength (p.route.length - 1) * pw (routeEstAreaSum g p.route) *
            pathDecayFactor ^ (p.route.length - 2) := by
  intro p hp
  have hmem : p ∈ exts.flatMap
      (fun ext =>
        if hasPathB g sid ext then
          ((allSimplePathsTo g sid ext 6).take 5).map (mkPathObj g ext)
        else []) := by
    unfold findVentilationPaths at hp
    exact (List.perm_insertionSort _ _).mem_iff.mp hp
  rcases List.mem_flatMap.mp hmem with ⟨ext, _, hpe⟩
  by_cases hpath : hasPathB g sid ext
  · rw [if_pos hpath] at hpe
    rcases List.mem_map.mp hpe with ⟨r, _, hpr⟩
    subst hpr
    have hlen : (mkPathObj g ext r).length = r.length - 1 := rfl
    have hroute : (mkPathObj g ext r).route = r := rfl
    have harea : (mkPathObj g ext r).total_opening_area = routeEstAreaSum g r := by
      show (((routePairs r).flatMap (fun ab => edgeOpeningInfos g ab.1 ab.2)).map
        OpeningInfo.estimated_area).sum = routeEstAreaSum g r
      rw [estArea_flatMap_sum g (routePairs r)]
      rfl
    have hdecay : (mkPathObj g ext r).decay_factor =
        pathDecayFactor ^ (r.length - 2) := by
      show pathDecayFactor ^ (r.length - 1 - 1) = pathDecayFactor ^ (r.length - 2)
      rw [Nat.sub_sub]
    refine ⟨hlen, ?_, ?_, ?_⟩
    · rw [hroute, hdecay]
    · rw [hroute, harea]
    · show baseAchForLength (mkPathObj g ext r).length *
          pw (mkPathObj g ext r).total_opening_area * (mkPathObj g ext r).decay_factor = _
      rw [hlen, hroute, harea, hdecay]
  · rw [if_neg hpath] at hpe
    exact absurd hpe (List.not_mem_nil p)

set_option maxHeartbeats 2000000 in
/-- Witness for C4 (amended) at the area-factor counterexample graph: for
the retained one-hop path the contribution is base · pw(4) · 1, with 4 the
estimated-area sum. -/
theorem pathContribution_formula_witness :
    mkPathObj c4Graph exteriorId ["s4", exteriorId] ∈
        findVentilationPaths c4Graph "s4" [exteriorId] ∧
      ((mkPathObj c4Graph exteriorId ["s4", exteriorId]).length =
          (mkPathObj c4Graph exteriorId ["s4", exteriorId]).route.length - 1 ∧
        (mkPathObj c4Graph exteriorId ["s4", exteriorId]).decay_factor =
          pathDecayFactor ^ ((mkPathObj c4Graph exteriorId ["s4", exteriorId]).route.length - 2) ∧
        (mkPathObj c4Graph exteriorId ["s4", exteriorId]).total_opening_area =
          routeEstAreaSum c4Graph (mkPathObj c4Graph exteriorId ["s4", exteriorId]).route ∧
        pathContribution (fun x => x + 1) (mkPathObj c4Graph exteriorId ["s4", exteriorId]) =
          baseAchForLength ((mkPathObj c4Graph exteriorId ["s4", exteriorId]).route.length - 1) *
            (fun x => x + 1)
              (routeEstAreaSum c4Graph (mkPathObj c4Graph exteriorId ["s4", exteriorId]).route) *
            pathDecayFactor ^
              ((mkPathObj c4Graph exteriorId ["s4", exteriorId]).route.length - 2)) := by
  have hmem : mkPathObj c4Graph exteriorId ["s4", exteriorId] ∈
      findVentilationPaths c4Graph "s4" [exteriorId] := by
    norm_num +decide [c4Graph, buildTopology, buildGraphRaw, c4Spaces, c4Openings, topoNodes,
      addNodeIfAbsent, insertOpening, openingWeight, hasEdgeB, findEdge, edgeMatches, replaceEdge,
      updEdgeData, exteriorId, validateTopology, graphComponents, reachSetOf, closureFuel, niter,
      nstep, adjList, spacePropsOf, setA, lookupA, pickLargest, repairEdge, findIsolatedSpaces,
      hasPathB, findVentilationPaths, allSimplePathsTo, spVisit, spLevel, mkPathObj, routePairs,
      edgeOpeningInfos, edgeOpeningsOf, edgeTypesOf, edgeWeightOf, openingTypeOf, estArea,
      List.insertionSort, List.orderedInsert, pathDecayFactor]
  exact ⟨hmem, pathContribution_formula (fun x => x + 1) c4Graph "s4" [exteriorId] _ hmem⟩

/-! ## Validity of space data (claim C5) -/

/-- The seen-id set threaded through the space pass ends as the initial set
plus every id present in the space list, regardless of the accumulated
errors and warnings. -/
theorem vSpaceFold_seen (spaces : List VSpace) :
    ∀ acc : List VErr × List VWarn × Finset String,
      (spaces.foldl vSpaceStep acc).2.2 =
        acc.2.2 ∪ (spaces.filterMap VSpace.id).toFinset := by
  induction spaces with
  | nil => intro acc; simp
  | cons s t ih =>
      intro acc
      rw [List.foldl_cons, ih]
      cases hid : s.id with
      | none =>
          simp [vSpaceStep, hid]
      | some i =>
          simp only [vSpaceStep, hid]
          rw [List.filterMap_cons_some hid, List.toFinset_cons]
          rw [Finset.insert_union, Finset.union_insert]

/-- The space pass records no error exactly when the accumulator holds none,
every space has an id, the present ids are pairwise distinct and none of
them was already seen. -/
theorem vSpaceFold_errs (spaces : List VSpace) :
    ∀ acc : List VErr × List VWarn × Finset String,
      ((spaces.foldl vSpaceStep acc).1 = [] ↔
        acc.1 = [] ∧ (∀ s ∈ spaces, s.id ≠ none) ∧
        (spaces.filterMap VSpace.id).Nodup ∧
        ∀ i ∈ spaces.filterMap VSpace.id, i ∉ acc.2.2) := by
  induction spaces with
  | nil => intro acc; simp
  | cons s t ih =>
      intro acc
      rw [List.foldl_cons]
      cases hid : s.id with
      | none =>
          constructor
          · intro h
            have h1 := (ih _).mp h
            simp [vSpaceStep, hid] at h1
          · rintro ⟨-, hall, -⟩
            exact absurd hid (hall s (List.mem_cons_self s t))
      | some i =>
          rw [ih _, List.filterMap_cons_some hid]
          simp only [vSpaceStep, hid, List.nodup_cons,
            List.forall_mem_cons, Finset.mem_insert, ne_eq]
          constructor
          · rintro ⟨h1, h2, h3, h4⟩
            by_cases hmem : i ∈ acc.2.2
            · rw [if_pos hmem] at h1; simp at h1
            · rw [if_neg hmem] at h1
              refine ⟨h1, ⟨by simp, h2⟩, ⟨?_, h3⟩, ⟨hmem, ?_⟩⟩
              · intro hin
                exact h4 i hin (Or.inl rfl)
              · intro j hj
                exact fun hjmem => h4 j hj (Or.inr hjmem)
          · rintro ⟨h1, ⟨-, h2⟩, ⟨h3, h4⟩, ⟨h5, h6⟩⟩
            rw [if_neg h5]
            refine ⟨h1, h2, h4, ?_⟩
            intro j hj
            push_neg
            exact ⟨fun he => h3 (he ▸ hj), h6 j hj⟩

/-- The endpoint scan of one connection records no error exactly when the
accumulator holds none and every endpoint matches a space id or starts with
the exterior marker. -/
theorem vRefFold_errs (spaceIds : Finset String) (i : String)
    (connects : List String) :
    ∀ es : List VErr,
      (connects.foldl (vRefStep spaceIds i) es = [] ↔
        es = [] ∧ ∀ sid ∈ connects,
          sid ∈ spaceIds ∨ sid.startsWith "space_exterior" = true) := by
  induction connects with
  | nil => intro es; simp
  | cons sid t ih =>
      intro es
      rw [List.foldl_cons]
      by_cases hb : sid ∉ spaceIds ∧ ¬ sid.startsWith "space_exterior"
      · constructor
        · intro h
          have h1 := (ih _).mp h
          simp [vRefStep, hb] at h1
        · rintro ⟨-, hall⟩
          rcases hall sid (List.mem_cons_self sid t) with hin | hst
          · exact absurd hin hb.1
          · exact absurd hst hb.2
      · rw [vRefStep, if_neg hb, ih es, List.forall_mem_cons]
        push_neg at hb
        constructor
        · rintro ⟨h1, h2⟩
          refine ⟨h1, ?_, h2⟩
          by_cases hin : sid ∈ spaceIds
          · exact Or.inl hin
          · exact Or.inr (hb hin)
        · rintro ⟨h1, -, h2⟩
          exact ⟨h1, h2⟩

/-- The connection pass records no error exactly when the accumulator holds
none, every connection has an id, the present connection ids are pairwise
distinct and unseen, and every endpoint matches a space id or starts with
the exterior marker. -/
theorem vConnFold_errs (spaceIds : Finset String) (conns : List VConn) :
    ∀ acc : List VErr × Finset String,
      ((conns.foldl (vConnStep spaceIds) acc).1 = [] ↔
        acc.1 = [] ∧ (∀ c ∈ conns, c.id ≠ none) ∧
        (conns.filterMap VConn.id).Nodup ∧
        (∀ i ∈ conns.filterMap VConn.id, i ∉ acc.2) ∧
        ∀ c ∈ conns, ∀ sid ∈ c.connects,
          sid ∈ spaceIds ∨ sid.startsWith "space_exterior" = true) := by
  induction conns with
  | nil => intro acc; simp
  | cons c t ih =>
      intro acc
      rw [List.foldl_cons]
      cases hid : c.id with
      | none =>
          constructor
          · intro h
            have h1 := (ih _).mp h
            simp [vConnStep, hid] at h1
          · rintro ⟨-, hall, -⟩
            exact absurd hid (hall c (List.mem_cons_self c t))
      | some i =>
          rw [ih _, List.filterMap_cons_some hid]
          simp only [vConnStep, hid, List.nodup_cons,
            List.forall_mem_cons, Finset.mem_insert, ne_eq]
          rw [vRefFold_errs spaceIds i c.connects]
          constructor
          · rintro ⟨⟨h0, h0r⟩, h2, h3, h4, h5⟩
            by_cases hmem : i ∈ acc.2
            · rw [if_pos hmem] at h0; simp at h0
            · rw [if_neg hmem] at h0
              refine ⟨h0, ⟨by simp, h2⟩, ⟨?_, h3⟩, ⟨hmem, ?_⟩, h0r, h5⟩
              · intro hin
                exact h4 i hin (Or.inl rfl)
              · intro j hj
                exact fun hjmem => h4 j hj (Or.inr hjmem)
          · rintro ⟨h1, ⟨-, h2⟩, ⟨h3, h4⟩, ⟨h5, h6⟩, h7, h8⟩
            rw [if_neg h5]
            refine ⟨⟨h1, h7⟩, h2, h4, ?_, h8⟩
            intro j hj
            push_neg
            exact ⟨fun he => h3 (he ▸ hj), h6 j hj⟩

/-- C5 as stated is false on the code: volume ≤ 0 (and out-of-range ACH)
yield warnings, not errors, so a record whose only space has volume 0 is
still reported valid although the claim requires every volume to be
positive. -/
theorem validateSpaceData_volume_not_required :
    (validateSpaceData [⟨some "a", some 0, some 0⟩] []).is_valid = true ∧
    ¬ (∀ s ∈ [(⟨some "a", some 0, some 0⟩ : VSpace)], 0 < s.volume.getD 0) := by
  constructor
  · norm_num [validateSpaceData, vSpacePass, vConnPass, vSpaceStep,
      List.foldl_cons, List.foldl_nil]
  · intro h
    have := h ⟨some "a", some 0, some 0⟩ (List.mem_cons_self _ _)
    norm_num at this

/-- C5 (amended): validate_space_data reports a record valid iff every space
has an id, the space ids are pairwise distinct, every connection has an id,
the connection ids are pairwise distinct, and every connection endpoint
refers to a space id or starts with the exterior sentinel.  Volume and ACH
violations produce warnings only and never affect validity. -/
theorem validateSpaceData_valid_iff (spaces : List VSpace) (conns : List VConn) :
    (validateSpaceData spaces conns).is_valid = true ↔
      ((∀ s ∈ spaces, s.id ≠ none) ∧ (spaces.filterMap VSpace.id).Nodup ∧
       (∀ c ∈ conns, c.id ≠ none) ∧ (conns.filterMap VConn.id).Nodup ∧
       ∀ c ∈ conns, ∀ sid ∈ c.connects,
         sid ∈ spaces.filterMap VSpace.id ∨
           sid.startsWith "space_exterior" = true) := by
  unfold validateSpaceData
  simp only [decide_eq_true_eq, List.append_eq_nil]
  rw [vSpacePass, vConnPass, vSpaceFold_errs spaces _, vConnFold_errs _ conns _,
    vSpaceFold_seen spaces _]
  simp only [Finset.empty_union, List.mem_toFinset, Finset.not_mem_empty,
    not_false_iff, implies_true, true_and]
  tauto
